import Mathlib

/-!
Verification of the bagz-index core against its specification.

The Python sources under `src/bagz_index/` are shallowly embedded below:
* byte strings become `List Nat`, Python `str` becomes `List Char`,
  Python `int` becomes `Int`;
* in-place mutation of protobuf repeated fields becomes pure list
  transformation; Python `dict` (insertion-ordered) becomes an association
  list; Python `set` accumulators become journals (lists of the inserted
  elements) read back with set semantics (`sortedSetInts`, membership);
* `sorted(...)` becomes `List.insertionSort`, whose result is the unique
  sorted arrangement of the underlying multiset, exactly as in Python;
* the external blake3 hash and the IEEE-float bucket-count computation
  `max(1, int(len/avg_bucket_size))` are kept abstract: the embedding is
  parametrised over the hash function `hash : List Nat → Nat` and over the
  (positive) bucket-count function, because no verified property depends on
  their concrete values, only on writer and reader using the same ones.
-/

namespace BagzIndex

/-- Serialized key bytes (`key.SerializeToString()` in the source). -/
abbrev Bytes := List Nat

/-- Python `sorted(...)` on an integer list. -/
def sortInts (l : List Int) : List Int :=
  List.insertionSort (· ≤ ·) l

/-- Python `sorted(set(...))` on integers: the distinct elements in
ascending order.  The `set` is represented by the journal of inserted
elements, so `dedup` realises the set collapse. -/
def sortedSetInts (l : List Int) : List Int :=
  List.insertionSort (· ≤ ·) l.dedup

/-- Lexicographic comparison of Python 2-tuples of ints, as used by
`sorted(zip(record_ids, record_offsets))`. -/
def pairLe (a b : Int × Int) : Prop :=
  a.1 < b.1 ∨ (a.1 = b.1 ∧ a.2 ≤ b.2)

instance : DecidableRel pairLe := fun _ _ =>
  inferInstanceAs (Decidable (_ ∨ _))

instance : IsTotal (Int × Int) pairLe where
  total a b := by
    rcases lt_trichotomy a.1 b.1 with h | h | h
    · exact Or.inl (Or.inl h)
    · rcases le_total a.2 b.2 with h2 | h2
      · exact Or.inl (Or.inr ⟨h, h2⟩)
      · exact Or.inr (Or.inr ⟨h.symm, h2⟩)
    · exact Or.inr (Or.inl h)

instance : IsTrans (Int × Int) pairLe where
  trans a b c hab hbc := by
    rcases hab with h | ⟨h, h2⟩
    · rcases hbc with h3 | ⟨h3, _⟩
      · exact Or.inl (h.trans h3)
      · exact Or.inl (h3 ▸ h)
    · rcases hbc with h3 | ⟨h3, h4⟩
      · exact Or.inl (h ▸ h3)
      · exact Or.inr ⟨h.trans h3, h2.trans h4⟩

instance : IsAntisymm (Int × Int) pairLe where
  antisymm a b hab hba := by
    rcases hab with h | ⟨h, h2⟩
    · rcases hba with h3 | ⟨h3, _⟩
      · exact absurd (h.trans h3) (lt_irrefl _)
      · exact absurd h (h3 ▸ lt_irrefl _)
    · rcases hba with h3 | ⟨h3, h4⟩
      · exact absurd h3 (h ▸ lt_irrefl _)
      · exact Prod.ext h (le_antisymm h2 h4)

/-- Python `sorted(...)` on a list of `(record_id, record_offset)` tuples. -/
def sortPairs (l : List (Int × Int)) : List (Int × Int) :=
  List.insertionSort pairLe l

/-!  ## Delta encoding (`trigram.py`, `_delta_encode` / `_delta_decode`)

The Python functions mutate `posting_list.record_ids` in place; the
embedding maps the record-id list to its transformed value.  `go` carries
the loop variable `last` (resp. the previously decoded element). -/
/-- Inner loop of `_delta_encode`: `last` is the ORIGINAL value of the
previous element (`posting_list.record_ids[i] - last` with the
simultaneous `last = posting_list.record_ids[i]` update). -/
def deltaEncodeGo (last : Int) : List Int → List Int
  | [] => []
  | y :: ys => (y - last) :: deltaEncodeGo y ys

/-- `_delta_encode`: first element unchanged, subsequent elements replaced
by consecutive differences.  No-op on an empty list. -/
def delta_encode : List Int → List Int
  | [] => []
  | x :: xs => x :: deltaEncodeGo x xs

/-- Inner loop of `_delta_decode`: `prev` is the already-decoded previous
element (`posting_list.record_ids[i] += posting_list.record_ids[i - 1]`). -/
def deltaDecodeGo (prev : Int) : List Int → List Int
  | [] => []
  | y :: ys => (prev + y) :: deltaDecodeGo (prev + y) ys

/-- `_delta_decode`: prefix sums, first element unchanged. -/
def delta_decode : List Int → List Int
  | [] => []
  | x :: xs => x :: deltaDecodeGo x xs

/-!  ## Normalization (`trigram.py`, `_normalize_text`)

`_normalize_text(text, regex) = regex.sub(" ", text.lower()).strip()`
where the compiled regex is `[^character_set]+`: each maximal nonempty run
of characters outside `character_set` is replaced by one space, and
`str.strip()` removes leading and trailing whitespace. -/
/-- Python `str.lower()` restricted to the ASCII mapping (the only case
exercised by this codebase; `Char.toLower` maps exactly A-Z to a-z). -/
def pyLower (t : List Char) : List Char :=
  t.map Char.toLower

/-- Characters removed by Python `str.strip()` with no argument (ASCII
whitespace; the relevant inputs here contain only spaces at the ends,
since out-of-charset runs have just been replaced by a space). -/
def pyIsSpace (c : Char) : Bool :=
  c = ' ' ∨ c = '\t' ∨ c = '\n' ∨ c = '\r' ∨ c = '\x0b' ∨ c = '\x0c'

/-- Python `str.strip()`: drop leading and trailing whitespace. -/
def pyStrip (t : List Char) : List Char :=
  ((t.dropWhile pyIsSpace).reverse.dropWhile pyIsSpace).reverse

/-- Scanner for `re.sub("[^cs]+", " ", ·)`.  The regex engine walks the
text left to right; `inRun` records whether the previous character was part
of an out-of-charset run (in which case the run's single replacement space
has already been emitted). -/
def subRunsGo (cs : List Char) : Bool → List Char → List Char
  | _, [] => []
  | inRun, c :: rest =>
    if c ∈ cs then c :: subRunsGo cs false rest
    else if inRun then subRunsGo cs true rest
    else ' ' :: subRunsGo cs true rest

/-- The substitution `re.sub("[^cs]+", " ", ·)`: each maximal nonempty run
of characters outside `cs` becomes a single space. -/
def subRuns (cs : List Char) (t : List Char) : List Char :=
  subRunsGo cs false t

/-- `_normalize_text`: lowercase, replace out-of-charset runs, strip. -/
def normalize_text (cs : List Char) (t : List Char) : List Char :=
  pyStrip (subRuns cs (pyLower t))

/-!  ## Trigram engine (`trigram.py`) -/
/-- `TrigramConfig` (frozen dataclass). -/
structure TrigramConfig where
  character_set : List Char
  ngram_size : Nat := 3
  normalize : Bool := false
  store_positions : Bool := false
  delta_encode_record_ids : Bool := false
deriving DecidableEq, Repr

/-- `effective_character_set`: the character set plus a space in
normalizing mode. -/
def TrigramConfig.effective_character_set (cfg : TrigramConfig) : List Char :=
  if cfg.normalize then cfg.character_set ++ [' '] else cfg.character_set

/-- `char_to_int_map`: the dict comprehension
`{c: i for i, c in enumerate(effective_character_set)}`.  A duplicated
character keeps the index of its LAST occurrence (later dict assignments
overwrite earlier ones): an occurrence in the tail shadows the head. -/
def charToInt : List Char → Char → Option Nat
  | [], _ => none
  | a :: rest, c =>
    match charToInt rest c with
    | some v => some (v + 1)
    | none => if a = c then some 0 else none

/-- Loop of `_ngram_to_index`: `index = index * base + char_map[char]`,
returning `-1` as soon as a character is missing from the map. -/
def ngramToIndexGo (eff : List Char) (base : Int) : Int → List Char → Int
  | acc, [] => acc
  | acc, c :: rest =>
    match charToInt eff c with
    | none => -1
    | some v => ngramToIndexGo eff base (acc * base + (v : Int)) rest

/-- `_ngram_to_index`: base-`len(char_map)` encoding of an n-gram, `-1` if
any character is absent.  `len(char_map)` is the number of DISTINCT
characters of the effective set (dict keys are unique). -/
def ngram_to_index (eff : List Char) (ngram : List Char) : Int :=
  ngramToIndexGo eff (eff.dedup.length : Int) 0 ngram

/-- The number of posting slots allocated by both writer `__init__`s:
`len(config.effective_character_set) ** config.ngram_size` (the FULL
length, duplicates included). -/
def numSlots (cfg : TrigramConfig) : Nat :=
  cfg.effective_character_set.length ^ cfg.ngram_size

/-- Appending one element to slot `s` of a posting table (`.append` /
`.add` on `self._postings[index]`). -/
def updSlot {β : Type} (st : Nat → List β) (s : Nat) (x : β) : Nat → List β :=
  fun k => if k = s then st k ++ [x] else st k

/-- A fresh posting table (`[... for _ in range(num_postings)]`). -/
def emptySlots {β : Type} : Nat → List β := fun _ => []

/-- The n-gram of `t` starting at offset `i`: `text[i : i + n]`. -/
def ngramAt (n : Nat) (t : List Char) (i : Nat) : List Char :=
  (t.drop i).take n

/-- Number of loop iterations of `add_text`/`search`:
`range(len(text) - ngram_size + 1)` — empty when the text is shorter than
one n-gram (Python range of a nonpositive bound). -/
def numNgrams (n : Nat) (t : List Char) : Nat :=
  t.length + 1 - n

/-- `_PositionalImpl.add_text` on an already-normalized text: record
`(record_id, i)` under the slot of every valid n-gram occurrence. -/
def posAddText (cfg : TrigramConfig) (st : Nat → List (Int × Int))
    (t : List Char) (rid : Int) : Nat → List (Int × Int) :=
  (List.range (numNgrams cfg.ngram_size t)).foldl
    (fun st i =>
      if ngram_to_index cfg.effective_character_set
          (ngramAt cfg.ngram_size t i) ≠ -1 then
        updSlot st (ngram_to_index cfg.effective_character_set
          (ngramAt cfg.ngram_size t i)).toNat (rid, (i : Int))
      else st)
    st

/-- `_SimpleImpl.add_text` on an already-normalized text: record the
record id under the slot of every valid n-gram occurrence (`index >= 0`
guard in the source). -/
def simpleAddText (cfg : TrigramConfig) (st : Nat → List Int)
    (t : List Char) (rid : Int) : Nat → List Int :=
  (List.range (numNgrams cfg.ngram_size t)).foldl
    (fun st i =>
      if 0 ≤ ngram_to_index cfg.effective_character_set
          (ngramAt cfg.ngram_size t i) then
        updSlot st (ngram_to_index cfg.effective_character_set
          (ngramAt cfg.ngram_size t i)).toNat rid
      else st)
    st

/-- `TrigramWriter.add_text`: normalize the text iff `config.normalize`,
then delegate to the implementation. -/
def normIf (cfg : TrigramConfig) (t : List Char) : List Char :=
  if cfg.normalize then normalize_text cfg.character_set t else t

/-- `TrigramWriter.add_text` in positional mode. -/
def trigramAddTextPos (cfg : TrigramConfig) (st : Nat → List (Int × Int))
    (t : List Char) (rid : Int) : Nat → List (Int × Int) :=
  posAddText cfg st (normIf cfg t) rid

/-- `TrigramWriter.add_text` in simple mode. -/
def trigramAddTextSimple (cfg : TrigramConfig) (st : Nat → List Int)
    (t : List Char) (rid : Int) : Nat → List Int :=
  simpleAddText cfg st (normIf cfg t) rid

/-- The positional writer state after a sequence of `add_text` calls. -/
def buildPosState (cfg : TrigramConfig) (calls : List (List Char × Int)) :
    Nat → List (Int × Int) :=
  calls.foldl (fun st c => trigramAddTextPos cfg st c.1 c.2) emptySlots

/-- The simple writer state after a sequence of `add_text` calls. -/
def buildSimpleState (cfg : TrigramConfig) (calls : List (List Char × Int)) :
    Nat → List Int :=
  calls.foldl (fun st c => trigramAddTextSimple cfg st c.1 c.2) emptySlots

/-- One persisted `PostingList`, as `(record_ids, record_offsets)`. -/
abbrev PostingList := List Int × List Int

/-- `_PositionalImpl.write` before the optional delta encoding:
`posting_tuples = sorted(zip(rids, offsets))`, split back into the two
parallel arrays. -/
def posWritePre (cfg : TrigramConfig) (st : Nat → List (Int × Int)) :
    List PostingList :=
  (List.range (numSlots cfg)).map fun s =>
    ((sortPairs (st s)).map Prod.fst, (sortPairs (st s)).map Prod.snd)

/-- The optional `_delta_encode(message)` step of both `write`s. -/
def applyDelta (cfg : TrigramConfig) (pl : PostingList) : PostingList :=
  if cfg.delta_encode_record_ids then (delta_encode pl.1, pl.2) else pl

/-- `_PositionalImpl.write`: the payload entries of the output bag. -/
def posWrite (cfg : TrigramConfig) (st : Nat → List (Int × Int)) :
    List PostingList :=
  (posWritePre cfg st).map (applyDelta cfg)

/-- `_SimpleImpl.write` before the optional delta encoding:
`record_ids = sorted(posting_set)`, no offsets. -/
def simpleWritePre (cfg : TrigramConfig) (st : Nat → List Int) :
    List PostingList :=
  (List.range (numSlots cfg)).map fun s => (sortedSetInts (st s), [])

/-- `_SimpleImpl.write`: the payload entries of the output bag. -/
def simpleWrite (cfg : TrigramConfig) (st : Nat → List Int) :
    List PostingList :=
  (simpleWritePre cfg st).map (applyDelta cfg)

/-- The two matcher classes of `trigram.py`
(`_SimpleNGramMatcher` / `_PositionNGramMatcher`), with their `set`
fields represented as journals read with set semantics. -/
inductive Matcher where
  | simple (ms : Option (List Int))
  | pos (first : Bool) (ms : List (Int × Int))
deriving DecidableEq, Repr

/-- `Matcher.add(i, posting_list)`.  The simple matcher intersects record
ids; the positional matcher intersects `(record_id, offset - i)` start
positions. -/
def Matcher.add : Matcher → Nat → PostingList → Matcher
  | .simple none, _, pl => .simple (some pl.1)
  | .simple (some m), _, pl => .simple (some (m.filter (fun r => pl.1.contains r)))
  | .pos first m, i, pl =>
    if first then .pos false ((pl.1.zip pl.2).map (fun p => (p.1, p.2 - (i : Int))))
    else .pos false (m.filter (fun x =>
      ((pl.1.zip pl.2).map (fun p => (p.1, p.2 - (i : Int)))).contains x))

/-- `no_remaining_matches`. -/
def Matcher.noRemaining : Matcher → Bool
  | .simple none => false
  | .simple (some m) => m.isEmpty
  | .pos first m => !first && m.isEmpty

/-- `record_ids`: the sorted distinct surviving record ids. -/
def Matcher.recordIds : Matcher → List Int
  | .simple none => []
  | .simple (some m) => sortedSetInts m
  | .pos _ m => sortedSetInts (m.map Prod.fst)

/-- The loop of `TrigramReader.search`: skip invalid n-grams, fetch the
posting at the slot, delta-decode the record ids if configured, feed the
matcher, and short-circuit with an empty result once no matches remain. -/
def searchLoop (cfg : TrigramConfig) (bag : List PostingList)
    (q : List Char) : List Nat → Matcher → List Int
  | [], m => m.recordIds
  | i :: rest, m =>
    let idx := ngram_to_index cfg.effective_character_set
      (ngramAt cfg.ngram_size q i)
    if idx ≠ -1 then
      let pl := bag.getD idx.toNat ([], [])
      let rids := if cfg.delta_encode_record_ids then delta_decode pl.1 else pl.1
      let m2 := m.add i (rids, pl.2)
      if m2.noRemaining then [] else searchLoop cfg bag q rest m2
    else searchLoop cfg bag q rest m

/-- The body of `TrigramReader.search` after the optional query
normalization: reject short queries, then run the matcher over all query
n-grams. -/
def searchCore (cfg : TrigramConfig) (bag : List PostingList)
    (q : List Char) : List Int :=
  if q.length < cfg.ngram_size then []
  else
    searchLoop cfg bag q (List.range (numNgrams cfg.ngram_size q))
      (if cfg.store_positions then .pos true [] else .simple none)

/-- `TrigramReader.search`: normalize the query iff `config.normalize`,
then proceed. -/
def search (cfg : TrigramConfig) (bag : List PostingList)
    (query : List Char) : List Int :=
  searchCore cfg bag (normIf cfg query)

/-!  ## HashBucket engine (`hashtable.py`)

`HashBucketWriter._data` is `collections.defaultdict(set)`, i.e. an
insertion-ordered map from serialized key bytes to a set of record ids.
It is embedded as an association list in insertion order whose values are
journals of the inserted ids (the `set` collapse happens where the source
reads the set back, via `sortedSetInts`).  Crucially,
`self._data[key].update(record_ids)` MATERIALISES the entry even when
`record_ids` is empty — `hbAdd` does the same.

The blake3 hash (external library) and the bucket count
`max(1, int(len(self._data) / avg_bucket_size))` (IEEE-float arithmetic)
enter only through the parameters `hash` and `nbOf`; writer and reader
agree on them exactly as in the source. -/
/-- One serialized `HashBucket`: its `HashRecord`s as `(key, record_ids)`
pairs (the empty bucket `b""` parses to the empty record list). -/
abbrev HashBucket := List (Bytes × List Int)

/-- `HashBucketWriter.add`:
`self._data[key.SerializeToString()].update(record_ids)`. -/
def hbAdd (st : List (Bytes × List Int)) (key : Bytes) (ids : List Int) :
    List (Bytes × List Int) :=
  match st with
  | [] => [(key, ids)]
  | (k, v) :: rest =>
    if k = key then (k, v ++ ids) :: rest else (k, v) :: hbAdd rest key ids

/-- The journal accumulated for `key` (empty if the key is absent). -/
def hbGet (st : List (Bytes × List Int)) (key : Bytes) : List Int :=
  ((st.find? (fun kv => kv.1 = key)).map Prod.snd).getD []

/-- The keys of the writer map, in insertion order. -/
def hbKeys (st : List (Bytes × List Int)) : List Bytes :=
  st.map Prod.fst

/-- The writer state after a sequence of `add` calls
(each call given as serialized key bytes and its record-id sequence). -/
def buildHBState (calls : List (Bytes × List Int)) : List (Bytes × List Int) :=
  calls.foldl (fun st c => hbAdd st c.1 c.2) []

/-- `HashBucketWriter.write` with the bucket count already computed: group
the keys by `hash(key) % num_buckets` (grouping then sorting each group
equals sorting the group filtered out of the key list), and emit, for each
bucket index in order, the records `(key, sorted(record_id_set))` in
sorted key order; an empty group yields the empty bucket (`b""`). -/
def hbWrite (hash : Bytes → Nat) (numBuckets : Nat)
    (st : List (Bytes × List Int)) : List HashBucket :=
  (List.range numBuckets).map fun b =>
    (List.insertionSort (· ≤ ·)
        ((hbKeys st).filter (fun k => hash k % numBuckets = b))).map
      (fun k => (k, sortedSetInts (hbGet st k)))

/-- `HashBucketWriter.write` including the bucket-count computation
`num_buckets = max(1, int(len(self._data) / avg_bucket_size))`, with the
float division abstracted as `nbOf`. -/
def hbWriteFull (hash : Bytes → Nat) (nbOf : Nat → Nat)
    (st : List (Bytes × List Int)) : List HashBucket :=
  hbWrite hash (max 1 (nbOf st.length)) st

/-- `HashBucketReader.lookup`: `num_buckets = len(bag) - 1` is the number
of payload entries; fetch the bucket at `hash(key) % num_buckets` and scan
it for an exact key match. -/
def hbLookup (hash : Bytes → Nat) (payload : List HashBucket)
    (key : Bytes) : Option (List Int) :=
  ((payload.getD (hash key % payload.length) []).find?
      (fun kv => kv.1 = key)).map Prod.snd

/-- All record ids passed in `add` calls carrying key `k`, in call order. -/
def allIdsOf (calls : List (Bytes × List Int)) (k : Bytes) : List Int :=
  ((calls.filter (fun c => c.1 = k)).map Prod.snd).flatten

/-!  ## Config registry and `merge_indices` (`core.py`)

A parsed descriptor is one of the two registered config variants.
`avg_bucket_size` is a JSON number; its value is modelled as a rational
(every IEEE float is one), and dataclass equality is field-wise value
equality. -/
/-- The closed union of registered index configs. -/
inductive IndexConfig where
  | hashbucket (key_proto_name : String) (avg_bucket_size : ℚ)
  | trigram (cfg : TrigramConfig)
deriving DecidableEq, Repr

/-- `core.merge_indices`, parametrised over the descriptor parser
`_config_from_bagz` (`parseConfig`) and over the dispatched merger
invocation `config.make_merger()(input_paths, output)` (`runMerger`).
`Except.error` models the raised `ValueError` — in that case the merger is
never constructed and no output is written. -/
def merge_indices {α β : Type} (parseConfig : α → IndexConfig)
    (runMerger : IndexConfig → List α → β) (inputs : List α) :
    Except String β :=
  match inputs with
  | [] => Except.error "At least one input bagz path must be provided."
  | i0 :: rest =>
    if rest.all (fun i => parseConfig i = parseConfig i0) then
      Except.ok (runMerger (parseConfig i0) (i0 :: rest))
    else Except.error "All indices must have the same config."

/-!  ## Sharded build driver (`generate_logic.py`, `ShardedIndexBuilder`)

The driver is a state machine over an abstract per-shard writer type `W`
(`_make_writer` returns a fresh `mkW`; `add`/`add_text` is `addW`).
Shard paths `tmpdir/<stem>-NNNNN<suffix>` are identified by their shard
number `NNNNN`.  `files` records the writes performed by
`writer.write(shard_path)` — the filesystem contents of the temporary
directory. -/
structure SBState (W : Type) where
  tempDir : Bool
  shardPaths : List Nat
  currentWriter : Option W
  currentCount : Nat
  shardId : Nat
  files : List (Nat × W)
deriving Repr

/-- `__init__`. -/
def sbInit (W : Type) : SBState W :=
  ⟨false, [], none, 0, 0, []⟩

/-- `_new_shard_writer`: register the next shard path, reset the record
count, bump the shard id, and return a FRESH writer (which the caller may
or may not store). -/
def sbNewShardWriter {W : Type} (mkW : W) (st : SBState W) : W × SBState W :=
  (mkW, { st with shardPaths := st.shardPaths ++ [st.shardId],
                  currentCount := 0, shardId := st.shardId + 1 })

/-- `__enter__`: create the temporary directory, then call
`_new_shard_writer()` DISCARDING its result (`self._current_writer` is not
assigned). -/
def sbEnter {W : Type} (mkW : W) (st : SBState W) : SBState W :=
  (sbNewShardWriter mkW { st with tempDir := true }).2

/-- The `current_writer` property: lazily creates (and caches) a writer
via `_new_shard_writer` when none is cached. -/
def sbCurrentWriter {W : Type} (mkW : W) (st : SBState W) : W × SBState W :=
  match st.currentWriter with
  | some w => (w, st)
  | none =>
    ((sbNewShardWriter mkW st).1,
     { (sbNewShardWriter mkW st).2 with
         currentWriter := some (sbNewShardWriter mkW st).1 })

/-- `_write_current_shard`: if a writer is cached, write it to
`self.shard_paths[-1]` and drop it. -/
def sbWriteCurrentShard {W : Type} (st : SBState W) : SBState W :=
  match st.currentWriter with
  | none => st
  | some w =>
    { st with files := st.files ++ [(st.shardPaths.getLastD 0, w)],
              currentWriter := none }

/-- `record_added`: count the record and flush once the shard limit is
reached. -/
def sbRecordAdded {W : Type} (limit : Nat) (st : SBState W) : SBState W :=
  let st2 := { st with currentCount := st.currentCount + 1 }
  if limit ≤ st2.currentCount then sbWriteCurrentShard st2 else st2

/-- `add_record` (`ShardedKeyIndexBuilder` / `ShardedTextIndexBuilder`):
feed the current writer, then `record_added`. -/
def sbAddRecord {W α : Type} (mkW : W) (addW : W → α → W) (limit : Nat)
    (st : SBState W) (x : α) : SBState W :=
  sbRecordAdded limit
    { (sbCurrentWriter mkW st).2 with
        currentWriter := some (addW (sbCurrentWriter mkW st).1 x) }

/-- `__exit__`: flush the current shard, then (when the temp dir exists
and shard paths were registered) request
`core.merge_indices(shard_paths, output)`.  The returned path list is
what the merger will attempt to OPEN AND READ. -/
def sbExit {W : Type} (st : SBState W) : SBState W × Option (List Nat) :=
  (sbWriteCurrentShard st,
   if (sbWriteCurrentShard st).tempDir ∧ (sbWriteCurrentShard st).shardPaths ≠ []
   then some (sbWriteCurrentShard st).shardPaths else none)

/-- A complete context-manager run: `__enter__`, the given `add_record`
calls, `__exit__`. -/
def sbRun {W α : Type} (mkW : W) (addW : W → α → W) (limit : Nat)
    (xs : List α) : SBState W × Option (List Nat) :=
  sbExit (xs.foldl (sbAddRecord mkW addW limit) (sbEnter mkW (sbInit W)))

/-- Whether every path handed to the merger exists in the temporary
directory (`bagz.Reader(path)` succeeds for each input). -/
def sbMergeReadsOk {W : Type} [DecidableEq W] (st : SBState W)
    (paths : List Nat) : Bool :=
  paths.all (fun p => (st.files.lookup p).isSome)

/-!  ## Field-path pattern engine (`generate_logic.py`) -/
/-- The matcher AST (`ExactMatcher`, `WildcardMatcher`,
`DoubleWildcardMatcher`, `SetMatcher`). -/
inductive PMatcher where
  | exact (name : String)
  | wildcard
  | doubleWildcard
  | setM (field_names : List String)
deriving DecidableEq, Repr

def PMatcher.isDoubleWildcard : PMatcher → Bool
  | .doubleWildcard => true
  | _ => false

/-- The recursion of `DoubleWildcardMatcher.match`: case 1 resumes the
pattern at the next matcher on the current path suffix (`f`), case 2
consumes one path component and retries (only when the path is
nonempty). -/
def dwGo (f : List String → Bool) : List String → Bool
  | [] => f []
  | x :: xs => f (x :: xs) || dwGo f xs

/-- `Pattern.match(field_path, pattern_index)`, with the pattern suffix
`self.matchers[pattern_index:]` as the explicit first argument: an
exhausted pattern succeeds iff the path is exhausted; an exhausted path
succeeds iff every remaining matcher is a `DoubleWildcardMatcher`;
otherwise the head matcher dispatches. -/
def patMatch : List PMatcher → List String → Bool
  | [], p => p.isEmpty
  | m :: rest, [] => (m :: rest).all PMatcher.isDoubleWildcard
  | m :: rest, x :: xs =>
    match m with
    | .exact n => if n = x then patMatch rest xs else false
    | .wildcard => patMatch rest xs
    | .setM names => if x ∈ names then patMatch rest xs else false
    | .doubleWildcard => dwGo (patMatch rest) (x :: xs)

/-- The component-splitting loop of `parse_pattern`: split on `.` at brace
depth zero; a trailing empty component is dropped (`if current_component`),
interior empty components are kept. -/
def splitComponentsGo (cur : List Char) (level : Int)
    (acc : List (List Char)) : List Char → List (List Char)
  | [] => if cur ≠ [] then acc ++ [cur] else acc
  | c :: rest =>
    if c = '{' then splitComponentsGo (cur ++ [c]) (level + 1) acc rest
    else if c = '}' then splitComponentsGo (cur ++ [c]) (level - 1) acc rest
    else if c = '.' ∧ level = 0 then splitComponentsGo [] level (acc ++ [cur]) rest
    else splitComponentsGo (cur ++ [c]) level acc rest

def splitComponents (s : List Char) : List (List Char) :=
  splitComponentsGo [] 0 [] s

/-- `_parse_field_set`: `re.fullmatch(r"\x7b(.*)\x7d", s)` matches iff `s`
is `{inner}` with no newline inside (`.` excludes newlines); on a match the
inner text is split on commas and each item stripped of whitespace,
otherwise the whole string is the single field name. -/
def parse_field_set (s : List Char) : List (List Char) :=
  if 2 ≤ s.length ∧ s.head? = some '{' ∧ s.getLast? = some '}' ∧
      '\n' ∉ (s.drop 1).take (s.length - 2) then
    (((s.drop 1).take (s.length - 2)).splitOn ',').map pyStrip
  else [s]

/-- Classification of one component in `parse_pattern`. -/
def classifyComponent (comp : List Char) : PMatcher :=
  if comp = ['*', '*'] then .doubleWildcard
  else if comp = ['*'] then .wildcard
  else if comp.head? = some '{' ∧ comp.getLast? = some '}' then
    .setM ((parse_field_set comp).map (fun l => String.mk l))
  else .exact (String.mk comp)

/-- `parse_pattern`. -/
def parse_pattern (s : List Char) : List PMatcher :=
  (splitComponents s).map classifyComponent

/-- A node of the record-schema tree (`FieldDescriptor`): a leaf field or
a message-typed field with nested fields.  Repetition does not influence
path enumeration or matching. -/
inductive FieldNode where
  | prim (name : String)
  | msg (name : String) (fields : List FieldNode)

mutual

/-- Paths contributed by one field in `_yield_field_paths`: the field
itself, then (for message fields) every nested path prefixed by its
name. -/
def pathsOfField : FieldNode → List (List String)
  | .prim n => [[n]]
  | .msg n fields => [n] :: (yieldFieldPathsList fields).map (fun p => n :: p)

/-- `_yield_field_paths` over a field list, in declaration order
(depth-first). -/
def yieldFieldPathsList : List FieldNode → List (List String)
  | [] => []
  | f :: rest => pathsOfField f ++ yieldFieldPathsList rest

end

/-- `expand_field_pattern`: every field path of the schema matching the
parsed pattern (the Python `set` is modelled as the list of matches in
enumeration order). -/
def expand_field_pattern (schema : List FieldNode) (pattern : List Char) :
    List (List String) :=
  (yieldFieldPathsList schema).filter
    (fun p => patMatch (parse_pattern pattern) p)

/-- The seed schema of the spec (section 8) and of
`tests/test_generate_logic.py`. -/
def seedSchema : List FieldNode :=
  [.prim "id", .prim "name", .prim "value",
   .msg "sub" [.prim "sub_id", .prim "sub_name", .prim "sub_value"],
   .prim "tags",
   .msg "nested_subs" [.prim "sub_id", .prim "sub_name", .prim "sub_value"]]

/-- The `(record_id, offset)` pairs the positional `add_text` appends to
slot `s` for one (already-normalized) text. -/
def posOcc (cfg : TrigramConfig) (t : List Char) (rid : Int) (s : Nat) :
    List (Int × Int) :=
  ((List.range (numNgrams cfg.ngram_size t)).filter
    (fun i =>
      decide (ngram_to_index cfg.effective_character_set
        (ngramAt cfg.ngram_size t i) ≠ -1) &&
      decide ((ngram_to_index cfg.effective_character_set
        (ngramAt cfg.ngram_size t i)).toNat = s))).map
    (fun (i : Nat) => (rid, (i : Int)))

/-- The record ids the simple `add_text` appends to slot `s` for one
(already-normalized) text. -/
def simpleOcc (cfg : TrigramConfig) (t : List Char) (rid : Int) (s : Nat) :
    List Int :=
  ((List.range (numNgrams cfg.ngram_size t)).filter
    (fun i =>
      decide (0 ≤ ngram_to_index cfg.effective_character_set
        (ngramAt cfg.ngram_size t i)) &&
      decide ((ngram_to_index cfg.effective_character_set
        (ngramAt cfg.ngram_size t i)).toNat = s))).map
    (fun _ => rid)

/-- Natural-number version of the n-gram accumulator, defined on texts all
of whose characters are present in the map. -/
def ngramValNat (B : Nat) (eff : List Char) : Nat → List Char → Nat
  | acc, [] => acc
  | acc, c :: rest => ngramValNat B eff (acc * B + (charToInt eff c).getD 0) rest

/-- The shifted start-position pairs which the search loop feeds to the
positional matcher at query n-gram `i`. -/
def spList (cfg : TrigramConfig) (bag : List PostingList) (q : List Char)
    (i : Nat) : List (Int × Int) :=
  ((if cfg.delta_encode_record_ids then
        delta_decode (bag.getD (ngram_to_index cfg.effective_character_set
          (ngramAt cfg.ngram_size q i)).toNat ([], [])).1
      else (bag.getD (ngram_to_index cfg.effective_character_set
          (ngramAt cfg.ngram_size q i)).toNat ([], [])).1).zip
    (bag.getD (ngram_to_index cfg.effective_character_set
          (ngramAt cfg.ngram_size q i)).toNat ([], [])).2).map
    (fun p => (p.1, p.2 - (i : Int)))

/-!  ### Contiguous substrings and n-gram windows -/
/-- Occurrence of `q` as a contiguous substring of `t` at offset `p`. -/
def substrAt (t q : List Char) (p : Nat) : Prop :=
  (t.drop p).take q.length = q

instance (t q : List Char) (p : Nat) : Decidable (substrAt t q p) :=
  inferInstanceAs (Decidable (_ = _))

/-- Executable contiguous-substring test. -/
def isSubstr (q t : List Char) : Bool :=
  (List.range (t.length + 1)).any (fun p => (t.drop p).take q.length == q)

/-!  ## Concrete fixtures for witnesses and counterexamples -/
/-- A positional trigram config with `normalize = False` (used to exhibit
skipped invalid query n-grams). -/
def cfgCex : TrigramConfig :=
  { character_set := ['a', 'b', 'c'], ngram_size := 3, normalize := false,
    store_positions := true, delta_encode_record_ids := false }

/-- A tiny positional config for the duplicate-pair counterexample. -/
def cfgC4 : TrigramConfig :=
  { character_set := ['a'], ngram_size := 1, normalize := false,
    store_positions := true, delta_encode_record_ids := false }

/-- A normalizing, delta-encoding positional config for witnesses. -/
def cfgW : TrigramConfig :=
  { character_set := ['a', 'b', 'c'], ngram_size := 2, normalize := true,
    store_positions := true, delta_encode_record_ids := true }

/-- A two-character config for order-invariance witnesses. -/
def cfgW2 : TrigramConfig :=
  { character_set := ['a', 'b'], ngram_size := 1, normalize := false,
    store_positions := true, delta_encode_record_ids := false }

lemma sortInts_perm (l : List Int) : List.Perm (sortInts l) l :=
  List.perm_insertionSort _ l

lemma sortInts_sorted (l : List Int) : List.Sorted (· ≤ ·) (sortInts l) :=
  List.sorted_insertionSort _ l

lemma sortInts_eq_of_perm {l₁ l₂ : List Int} (h : List.Perm l₁ l₂) :
    sortInts l₁ = sortInts l₂ :=
  List.eq_of_perm_of_sorted (((sortInts_perm l₁).trans h).trans (sortInts_perm l₂).symm)
    (sortInts_sorted l₁) (sortInts_sorted l₂)

lemma sortedSetInts_eq_of_perm {l₁ l₂ : List Int} (h : List.Perm l₁ l₂) :
    sortedSetInts l₁ = sortedSetInts l₂ :=
  List.eq_of_perm_of_sorted
    (((List.perm_insertionSort _ _).trans h.dedup).trans
      (List.perm_insertionSort _ _).symm)
    (List.sorted_insertionSort _ _) (List.sorted_insertionSort _ _)

lemma sortedSetInts_eq_of_mem_iff {l₁ l₂ : List Int}
    (h : ∀ x, x ∈ l₁ ↔ x ∈ l₂) : sortedSetInts l₁ = sortedSetInts l₂ := by
  have hd : List.Perm l₁.dedup l₂.dedup := by
    rw [List.perm_ext_iff_of_nodup (List.nodup_dedup l₁) (List.nodup_dedup l₂)]
    intro a
    simpa only [List.mem_dedup] using h a
  exact List.eq_of_perm_of_sorted
    (((List.perm_insertionSort _ _).trans hd).trans
      (List.perm_insertionSort _ _).symm)
    (List.sorted_insertionSort _ _) (List.sorted_insertionSort _ _)

lemma mem_sortedSetInts {l : List Int} {x : Int} :
    x ∈ sortedSetInts l ↔ x ∈ l := by
  unfold sortedSetInts
  rw [(List.perm_insertionSort _ _).mem_iff, List.mem_dedup]

lemma sortPairs_perm (l : List (Int × Int)) : List.Perm (sortPairs l) l :=
  List.perm_insertionSort _ l

lemma sortPairs_sorted (l : List (Int × Int)) :
    List.Sorted pairLe (sortPairs l) :=
  List.sorted_insertionSort _ l

lemma sortPairs_eq_of_perm {l₁ l₂ : List (Int × Int)} (h : List.Perm l₁ l₂) :
    sortPairs l₁ = sortPairs l₂ :=
  List.eq_of_perm_of_sorted
    (((sortPairs_perm l₁).trans h).trans (sortPairs_perm l₂).symm)
    (sortPairs_sorted l₁) (sortPairs_sorted l₂)

lemma mem_sortPairs {l : List (Int × Int)} {x : Int × Int} :
    x ∈ sortPairs l ↔ x ∈ l :=
  (sortPairs_perm l).mem_iff

/-- Splitting a list of pairs back into its component lists and re-zipping
is the identity (`zip(*pairs)` round trip). -/
lemma zip_map_fst_snd {α β : Type} (l : List (α × β)) :
    (l.map Prod.fst).zip (l.map Prod.snd) = l := by
  induction l with
  | nil => rfl
  | cons a l ih => simp [List.zip_cons_cons, ih]

/-- Reading the `i`-th element of a table built with `List.range`. -/
lemma getD_map_range {α : Type} (f : ℕ → α) (n i : ℕ) (d : α) (h : i < n) :
    ((List.range n).map f).getD i d = f i := by
  rw [List.getD_eq_getElem?_getD, List.getElem?_map, List.getElem?_range h]
  rfl

lemma deltaDecodeGo_deltaEncodeGo (last : Int) (l : List Int) :
    deltaDecodeGo last (deltaEncodeGo last l) = l := by
  induction l generalizing last with
  | nil => rfl
  | cons y ys ih =>
    simp only [deltaEncodeGo, deltaDecodeGo, add_sub_cancel, ih]

/-- Decoding inverts encoding, for every integer list. -/
lemma delta_decode_delta_encode (l : List Int) :
    delta_decode (delta_encode l) = l := by
  cases l with
  | nil => rfl
  | cons x xs => simp only [delta_encode, delta_decode, deltaDecodeGo_deltaEncodeGo]

lemma deltaEncodeGo_length (last : Int) (l : List Int) :
    (deltaEncodeGo last l).length = l.length := by
  induction l generalizing last with
  | nil => rfl
  | cons y ys ih => simp [deltaEncodeGo, ih]

lemma delta_encode_length (l : List Int) :
    (delta_encode l).length = l.length := by
  cases l with
  | nil => rfl
  | cons x xs => simp [delta_encode, deltaEncodeGo_length]

lemma deltaDecodeGo_length (prev : Int) (l : List Int) :
    (deltaDecodeGo prev l).length = l.length := by
  induction l generalizing prev with
  | nil => rfl
  | cons y ys ih => simp [deltaDecodeGo, ih]

lemma delta_decode_length (l : List Int) :
    (delta_decode l).length = l.length := by
  cases l with
  | nil => rfl
  | cons x xs => simp [delta_decode, deltaDecodeGo_length]

lemma hbGet_hbAdd (st : List (Bytes × List Int)) (key : Bytes)
    (ids : List Int) (k : Bytes) :
    hbGet (hbAdd st key ids) k =
      if key = k then hbGet st k ++ ids else hbGet st k := by
  induction st with
  | nil =>
    by_cases h : key = k
    · subst h
      simp [hbAdd, hbGet, List.find?]
    · simp [hbAdd, hbGet, List.find?, h, Ne.symm h]
  | cons a rest ih =>
    obtain ⟨ak, av⟩ := a
    by_cases hk : ak = key
    · subst hk
      by_cases h : ak = k
      · subst h
        simp [hbAdd, hbGet, List.find?]
      · simp [hbAdd, hbGet, List.find?, h]
    · by_cases h : ak = k
      · subst h
        have : ¬ key = ak := fun e => hk e.symm
        simp [hbAdd, hbGet, List.find?, hk, this]
      · simp only [hbAdd, if_neg hk]
        simp only [hbGet, List.find?] at ih ⊢
        simp [h, ih]

lemma hbKeys_hbAdd (st : List (Bytes × List Int)) (key : Bytes)
    (ids : List Int) :
    hbKeys (hbAdd st key ids) =
      hbKeys st ++ (if key ∈ hbKeys st then [] else [key]) := by
  induction st with
  | nil => simp [hbAdd, hbKeys]
  | cons a rest ih =>
    obtain ⟨ak, av⟩ := a
    by_cases hk : ak = key
    · subst hk
      simp [hbAdd, hbKeys]
    · have hne : ¬ key = ak := fun e => hk e.symm
      simp only [hbAdd, if_neg hk]
      simp only [hbKeys, List.map_cons] at ih ⊢
      rw [ih, List.cons_append]
      by_cases hmem : key ∈ List.map Prod.fst rest
      · simp [hmem, List.mem_cons]
      · simp [hmem, List.mem_cons, hne]

lemma mem_hbKeys_hbAdd (st : List (Bytes × List Int)) (key : Bytes)
    (ids : List Int) (k : Bytes) :
    k ∈ hbKeys (hbAdd st key ids) ↔ k ∈ hbKeys st ∨ k = key := by
  rw [hbKeys_hbAdd]
  by_cases h : key ∈ hbKeys st
  · simp only [h, if_pos]
    constructor
    · intro hm
      exact Or.inl (by simpa using hm)
    · rintro (hm | rfl)
      · simpa using hm
      · simpa using h
  · simp [h, or_comm]

lemma nodup_hbKeys_hbAdd (st : List (Bytes × List Int)) (key : Bytes)
    (ids : List Int) (h : (hbKeys st).Nodup) :
    (hbKeys (hbAdd st key ids)).Nodup := by
  rw [hbKeys_hbAdd]
  by_cases hm : key ∈ hbKeys st
  · simpa [hm] using h
  · have hd : (hbKeys st ++ [key]).Nodup := by
      rw [List.nodup_append]
      refine ⟨h, List.nodup_singleton key, ?_⟩
      intro a ha hb
      simp only [List.mem_singleton] at hb
      exact hm (hb ▸ ha)
    simpa [hm] using hd

lemma hbGet_buildHBState_aux (calls : List (Bytes × List Int))
    (st : List (Bytes × List Int)) (k : Bytes) :
    hbGet (calls.foldl (fun st c => hbAdd st c.1 c.2) st) k =
      hbGet st k ++ allIdsOf calls k := by
  induction calls generalizing st with
  | nil => simp [allIdsOf]
  | cons c rest ih =>
    rw [List.foldl_cons, ih, hbGet_hbAdd]
    by_cases h : c.1 = k
    · simp [allIdsOf, h, List.append_assoc]
    · simp [allIdsOf, h]

/-- The record-id journal of the final writer state for key `k` is the
concatenation, in call order, of the ids added with key `k`. -/
lemma hbGet_buildHBState (calls : List (Bytes × List Int)) (k : Bytes) :
    hbGet (buildHBState calls) k = allIdsOf calls k := by
  have := hbGet_buildHBState_aux calls [] k
  simpa [buildHBState, hbGet, List.find?] using this

lemma mem_hbKeys_buildHBState_aux (calls : List (Bytes × List Int))
    (st : List (Bytes × List Int)) (k : Bytes) :
    k ∈ hbKeys (calls.foldl (fun st c => hbAdd st c.1 c.2) st) ↔
      k ∈ hbKeys st ∨ k ∈ calls.map Prod.fst := by
  induction calls generalizing st with
  | nil => simp
  | cons c rest ih =>
    rw [List.foldl_cons, ih, mem_hbKeys_hbAdd]
    simp [or_assoc, eq_comm]

/-- A key is present in the final writer map iff some `add` call used it
(including calls with an empty record-id sequence). -/
lemma mem_hbKeys_buildHBState (calls : List (Bytes × List Int)) (k : Bytes) :
    k ∈ hbKeys (buildHBState calls) ↔ k ∈ calls.map Prod.fst := by
  have := mem_hbKeys_buildHBState_aux calls [] k
  simpa [buildHBState, hbKeys] using this

lemma nodup_hbKeys_buildHBState_aux (calls : List (Bytes × List Int))
    (st : List (Bytes × List Int)) (h : (hbKeys st).Nodup) :
    (hbKeys (calls.foldl (fun st c => hbAdd st c.1 c.2) st)).Nodup := by
  induction calls generalizing st with
  | nil => exact h
  | cons c rest ih =>
    rw [List.foldl_cons]
    exact ih _ (nodup_hbKeys_hbAdd _ _ _ h)

/-- The final writer map has no duplicate keys. -/
lemma nodup_hbKeys_buildHBState (calls : List (Bytes × List Int)) :
    (hbKeys (buildHBState calls)).Nodup :=
  nodup_hbKeys_buildHBState_aux calls [] (by simp [hbKeys])

/-- Scanning a bucket whose records were generated per key: a present key
finds exactly its generated record. -/
lemma find?_map_of_mem {α : Type} [DecidableEq α] {l : List α} {k : α}
    (F : α → List Int) (h : k ∈ l) :
    ((l.map (fun a => (a, F a))).find? (fun kv => kv.1 = k)) =
      some (k, F k) := by
  induction l with
  | nil => cases h
  | cons a rest ih =>
    by_cases ha : a = k
    · subst ha
      simp [List.find?]
    · rcases List.mem_cons.mp h with h1 | h1
      · exact absurd h1.symm ha
      · simpa [List.find?, ha] using ih h1

lemma find?_map_of_not_mem {α : Type} [DecidableEq α] {l : List α} {k : α}
    (F : α → List Int) (h : k ∉ l) :
    ((l.map (fun a => (a, F a))).find? (fun kv => kv.1 = k)) = none := by
  rw [List.find?_eq_none]
  intro x hx
  simp only [List.mem_map] at hx
  obtain ⟨a0, ha0, rfl⟩ := hx
  simp only [decide_eq_true_eq]
  intro hk
  exact h (hk ▸ ha0)

/-- Characterization of `HashBucketReader.lookup` over a freshly written
index: a present key returns its sorted deduplicated id set, an absent key
returns `None`.  Holds for every hash function and bucket-count function
because writer and reader share them. -/
lemma hbLookup_hbWriteFull (hash : Bytes → Nat) (nbOf : Nat → Nat)
    (st : List (Bytes × List Int)) (k : Bytes) :
    hbLookup hash (hbWriteFull hash nbOf st) k =
      if k ∈ hbKeys st then some (sortedSetInts (hbGet st k)) else none := by
  have hpos : 0 < max 1 (nbOf st.length) := lt_of_lt_of_le one_pos (le_max_left _ _)
  set nb := max 1 (nbOf st.length) with hnb
  have hlen : (hbWriteFull hash nbOf st).length = nb := by
    simp [hbWriteFull, hbWrite]
  unfold hbLookup
  rw [hlen]
  have hmod : hash k % nb < nb := Nat.mod_lt _ hpos
  have hget : (hbWriteFull hash nbOf st).getD (hash k % nb) [] =
      (List.insertionSort (· ≤ ·)
          ((hbKeys st).filter (fun k0 => hash k0 % nb = hash k % nb))).map
        (fun k0 => (k0, sortedSetInts (hbGet st k0))) := by
    unfold hbWriteFull hbWrite
    rw [← hnb]
    exact getD_map_range _ _ _ _ hmod
  rw [hget]
  by_cases hk : k ∈ hbKeys st
  · have hmem : k ∈ List.insertionSort (· ≤ ·)
        ((hbKeys st).filter (fun k0 => hash k0 % nb = hash k % nb)) := by
      rw [(List.perm_insertionSort _ _).mem_iff, List.mem_filter]
      exact ⟨hk, by simp⟩
    rw [find?_map_of_mem _ hmem]
    simp [hk]
  · have hmem : k ∉ List.insertionSort (· ≤ ·)
        ((hbKeys st).filter (fun k0 => hash k0 % nb = hash k % nb)) := by
      rw [(List.perm_insertionSort _ _).mem_iff, List.mem_filter]
      exact fun h => hk h.1
    rw [find?_map_of_not_mem _ hmem]
    simp [hk]

/-!  ### Characterization of the trigram writer state -/
lemma foldl_updSlot_apply {β : Type} (P : Nat → Prop) [DecidablePred P]
    (f : Nat → Nat) (g : Nat → β) (l : List Nat) (st : Nat → List β) (s : Nat) :
    (l.foldl (fun st i => if P i then updSlot st (f i) (g i) else st) st) s =
      st s ++ (l.filter (fun i => decide (P i) && decide (f i = s))).map g := by
  induction l generalizing st with
  | nil => simp
  | cons i rest ih =>
    rw [List.foldl_cons, ih]
    by_cases hp : P i
    · by_cases hf : f i = s
      · subst hf
        simp [hp, updSlot, List.filter_cons, List.append_assoc]
      · have hfs : ¬ s = f i := fun e => hf e.symm
        simp [hp, hf, hfs, updSlot, List.filter_cons]
    · simp [hp, List.filter_cons]

lemma posAddText_apply (cfg : TrigramConfig) (st : Nat → List (Int × Int))
    (t : List Char) (rid : Int) (s : Nat) :
    posAddText cfg st t rid s = st s ++ posOcc cfg t rid s := by
  unfold posAddText posOcc
  exact foldl_updSlot_apply
    (fun i => ngram_to_index cfg.effective_character_set (ngramAt cfg.ngram_size t i) ≠ -1)
    (fun i => (ngram_to_index cfg.effective_character_set (ngramAt cfg.ngram_size t i)).toNat)
    (fun i => (rid, (i : Int)))
    (List.range (numNgrams cfg.ngram_size t)) st s

lemma simpleAddText_apply (cfg : TrigramConfig) (st : Nat → List Int)
    (t : List Char) (rid : Int) (s : Nat) :
    simpleAddText cfg st t rid s = st s ++ simpleOcc cfg t rid s := by
  unfold simpleAddText simpleOcc
  exact foldl_updSlot_apply
    (fun i => 0 ≤ ngram_to_index cfg.effective_character_set (ngramAt cfg.ngram_size t i))
    (fun i => (ngram_to_index cfg.effective_character_set (ngramAt cfg.ngram_size t i)).toNat)
    (fun _ => rid)
    (List.range (numNgrams cfg.ngram_size t)) st s

lemma buildPosState_aux (cfg : TrigramConfig) (calls : List (List Char × Int))
    (st : Nat → List (Int × Int)) (s : Nat) :
    (calls.foldl (fun st c => trigramAddTextPos cfg st c.1 c.2) st) s =
      st s ++ (calls.map (fun c => posOcc cfg (normIf cfg c.1) c.2 s)).flatten := by
  induction calls generalizing st with
  | nil => simp
  | cons c rest ih =>
    rw [List.foldl_cons, ih]
    simp [trigramAddTextPos, posAddText_apply, List.append_assoc]

/-- Slot `s` of the final positional writer state is the concatenation, in
call order, of the per-call occurrence journals. -/
lemma buildPosState_apply (cfg : TrigramConfig) (calls : List (List Char × Int))
    (s : Nat) :
    buildPosState cfg calls s =
      (calls.map (fun c => posOcc cfg (normIf cfg c.1) c.2 s)).flatten := by
  have := buildPosState_aux cfg calls emptySlots s
  simpa [buildPosState, emptySlots] using this

lemma buildSimpleState_aux (cfg : TrigramConfig)
    (calls : List (List Char × Int)) (st : Nat → List Int) (s : Nat) :
    (calls.foldl (fun st c => trigramAddTextSimple cfg st c.1 c.2) st) s =
      st s ++ (calls.map (fun c => simpleOcc cfg (normIf cfg c.1) c.2 s)).flatten := by
  induction calls generalizing st with
  | nil => simp
  | cons c rest ih =>
    rw [List.foldl_cons, ih]
    simp [trigramAddTextSimple, simpleAddText_apply, List.append_assoc]

/-- Slot `s` of the final simple writer state is the concatenation, in
call order, of the per-call occurrence journals. -/
lemma buildSimpleState_apply (cfg : TrigramConfig)
    (calls : List (List Char × Int)) (s : Nat) :
    buildSimpleState cfg calls s =
      (calls.map (fun c => simpleOcc cfg (normIf cfg c.1) c.2 s)).flatten := by
  have := buildSimpleState_aux cfg calls emptySlots s
  simpa [buildSimpleState, emptySlots] using this

lemma mem_posOcc {cfg : TrigramConfig} {t : List Char} {rid : Int} {s : Nat}
    {x : Int × Int} :
    x ∈ posOcc cfg t rid s ↔ ∃ i, i < numNgrams cfg.ngram_size t ∧
      ngram_to_index cfg.effective_character_set (ngramAt cfg.ngram_size t i) ≠ -1 ∧
      (ngram_to_index cfg.effective_character_set (ngramAt cfg.ngram_size t i)).toNat = s ∧
      x = (rid, (i : Int)) := by
  unfold posOcc
  constructor
  · intro hm
    obtain ⟨i, hif, hx⟩ := List.mem_map.mp hm
    obtain ⟨hir, hcond⟩ := List.mem_filter.mp hif
    rw [Bool.and_eq_true, decide_eq_true_eq, decide_eq_true_eq] at hcond
    exact ⟨i, List.mem_range.mp hir, hcond.1, hcond.2, hx.symm⟩
  · rintro ⟨i, hi, h1, h2, rfl⟩
    apply List.mem_map.mpr
    refine ⟨i, List.mem_filter.mpr ⟨List.mem_range.mpr hi, ?_⟩, rfl⟩
    rw [Bool.and_eq_true, decide_eq_true_eq, decide_eq_true_eq]
    exact ⟨h1, h2⟩

/-!  ### The n-gram slot encoding -/
lemma charToInt_eq_none_iff (eff : List Char) (c : Char) :
    charToInt eff c = none ↔ c ∉ eff := by
  induction eff with
  | nil => simp [charToInt]
  | cons a rest ih =>
    simp only [charToInt]
    cases h : charToInt rest c with
    | some v =>
      have : c ∈ rest := by
        by_contra hc
        rw [← ih] at hc
        rw [h] at hc
        cases hc
      simp [this]
    | none =>
      have hrest : c ∉ rest := ih.mp h
      by_cases ha : a = c
      · simp [ha]
      · have hca : ¬ c = a := fun e => ha e.symm
        simp [ha, hrest, hca]

lemma charToInt_lt_length {eff : List Char} {c : Char} {v : Nat}
    (h : charToInt eff c = some v) : v < eff.length := by
  induction eff generalizing v with
  | nil => cases h
  | cons a rest ih =>
    simp only [charToInt] at h
    cases hr : charToInt rest c with
    | some w =>
      rw [hr] at h
      injection h with h
      subst h
      exact Nat.succ_lt_succ (ih hr)
    | none =>
      rw [hr] at h
      by_cases ha : a = c
      · rw [if_pos ha] at h
        injection h with h
        subst h
        exact Nat.succ_pos _
      · rw [if_neg ha] at h
        cases h

lemma charToInt_inj {eff : List Char} {c₁ c₂ : Char} {v : Nat}
    (h₁ : charToInt eff c₁ = some v) (h₂ : charToInt eff c₂ = some v) :
    c₁ = c₂ := by
  induction eff generalizing v with
  | nil => cases h₁
  | cons a rest ih =>
    simp only [charToInt] at h₁ h₂
    cases hr₁ : charToInt rest c₁ with
    | some w₁ =>
      rw [hr₁] at h₁
      injection h₁ with h₁
      cases hr₂ : charToInt rest c₂ with
      | some w₂ =>
        rw [hr₂] at h₂
        injection h₂ with h₂
        have hw : w₁ = w₂ := by omega
        exact ih hr₁ (by rw [hr₂, hw])
      | none =>
        rw [hr₂] at h₂
        by_cases ha : a = c₂
        · rw [if_pos ha] at h₂
          injection h₂ with h₂
          omega
        · rw [if_neg ha] at h₂
          cases h₂
    | none =>
      rw [hr₁] at h₁
      cases hr₂ : charToInt rest c₂ with
      | some w₂ =>
        rw [hr₂] at h₂
        injection h₂ with h₂
        by_cases ha : a = c₁
        · rw [if_pos ha] at h₁
          injection h₁ with h₁
          omega
        · rw [if_neg ha] at h₁
          cases h₁
      | none =>
        rw [hr₂] at h₂
        by_cases ha₁ : a = c₁
        · by_cases ha₂ : a = c₂
          · exact ha₁ ▸ ha₂
          · rw [if_neg ha₂] at h₂
            cases h₂
        · rw [if_neg ha₁] at h₁
          cases h₁

lemma ngramToIndexGo_eq_neg_one {eff : List Char} {g : List Char}
    (B : Int) (h : ∃ c ∈ g, c ∉ eff) (acc : Int) :
    ngramToIndexGo eff B acc g = -1 := by
  induction g generalizing acc with
  | nil => simp at h
  | cons c rest ih =>
    simp only [ngramToIndexGo]
    cases hc : charToInt eff c with
    | none => rfl
    | some v =>
      have hcm : c ∈ eff := by
        by_contra hn
        rw [← charToInt_eq_none_iff] at hn
        rw [hc] at hn
        cases hn
      obtain ⟨d, hd, hdm⟩ := h
      rcases List.mem_cons.mp hd with rfl | hd2
      · exact absurd hcm hdm
      · exact ih ⟨d, hd2, hdm⟩ _

lemma ngramToIndexGo_eq_valNat {eff : List Char} {g : List Char}
    (B : Nat) (h : ∀ c ∈ g, c ∈ eff) (acc : Nat) :
    ngramToIndexGo eff (B : Int) (acc : Int) g =
      ((ngramValNat B eff acc g : Nat) : Int) := by
  induction g generalizing acc with
  | nil => rfl
  | cons c rest ih =>
    have hcm : c ∈ eff := h c (List.mem_cons_self _ _)
    have hsome : charToInt eff c ≠ none := by
      intro hn
      exact (charToInt_eq_none_iff eff c).mp hn hcm
    cases hc : charToInt eff c with
    | none => exact absurd hc hsome
    | some v =>
      simp only [ngramToIndexGo, ngramValNat, hc, Option.getD_some]
      have hrest : ∀ c0 ∈ rest, c0 ∈ eff := fun c0 hc0 => h c0 (List.mem_cons_of_mem _ hc0)
      have := ih hrest (acc * B + v)
      rw [← this]
      push_cast
      ring_nf

lemma ngramValNat_lt {B : Nat} {eff : List Char} {g : List Char}
    (hd : ∀ c ∈ g, (charToInt eff c).getD 0 < B) :
    ∀ acc, ngramValNat B eff acc g < (acc + 1) * B ^ g.length := by
  induction g with
  | nil => intro acc; simp [ngramValNat]
  | cons c rest ih =>
    intro acc
    have hdc : (charToInt eff c).getD 0 < B := hd c (List.mem_cons_self _ _)
    have hrest : ∀ c0 ∈ rest, (charToInt eff c0).getD 0 < B :=
      fun c0 hc0 => hd c0 (List.mem_cons_of_mem _ hc0)
    have h1 := ih hrest (acc * B + (charToInt eff c).getD 0)
    have h2 : (acc * B + (charToInt eff c).getD 0 + 1) * B ^ rest.length ≤
        (acc + 1) * B ^ (c :: rest).length := by
      simp only [List.length_cons, pow_succ]
      have : acc * B + (charToInt eff c).getD 0 + 1 ≤ (acc + 1) * B := by
        nlinarith
      nlinarith [Nat.zero_le (B ^ rest.length)]
    exact lt_of_lt_of_le h1 h2

lemma ngramValNat_ge (B : Nat) (eff : List Char) (g : List Char) :
    ∀ acc, acc * B ^ g.length ≤ ngramValNat B eff acc g := by
  induction g with
  | nil => intro acc; simp [ngramValNat]
  | cons c rest ih =>
    intro acc
    have h1 := ih (acc * B + (charToInt eff c).getD 0)
    have h2 : acc * B ^ (c :: rest).length ≤
        (acc * B + (charToInt eff c).getD 0) * B ^ rest.length := by
      simp only [List.length_cons, pow_succ]
      nlinarith [Nat.zero_le ((charToInt eff c).getD 0 * B ^ rest.length)]
    exact le_trans h2 h1

lemma ngramValNat_lt_of_acc_lt {B : Nat} {eff : List Char}
    {g₁ g₂ : List Char} {acc₁ acc₂ : Nat}
    (hd₁ : ∀ c ∈ g₁, (charToInt eff c).getD 0 < B)
    (hlen : g₁.length = g₂.length) (hacc : acc₁ < acc₂) :
    ngramValNat B eff acc₁ g₁ < ngramValNat B eff acc₂ g₂ := by
  have h1 := ngramValNat_lt hd₁ acc₁
  have h2 := ngramValNat_ge B eff g₂ acc₂
  have h3 : (acc₁ + 1) * B ^ g₁.length ≤ acc₂ * B ^ g₂.length := by
    rw [hlen]
    exact Nat.mul_le_mul_right _ hacc
  omega

lemma ngramValNat_inj {B : Nat} {eff : List Char} {g₁ g₂ : List Char}
    (hv₁ : ∀ c ∈ g₁, c ∈ eff) (hv₂ : ∀ c ∈ g₂, c ∈ eff)
    (hd₁ : ∀ c ∈ g₁, (charToInt eff c).getD 0 < B)
    (hd₂ : ∀ c ∈ g₂, (charToInt eff c).getD 0 < B)
    (hlen : g₁.length = g₂.length) :
    ∀ acc, ngramValNat B eff acc g₁ = ngramValNat B eff acc g₂ → g₁ = g₂ := by
  induction g₁ generalizing g₂ with
  | nil =>
    cases g₂ with
    | nil => intro _ _; rfl
    | cons c₂ r₂ => simp at hlen
  | cons c₁ r₁ ih =>
    cases g₂ with
    | nil => simp at hlen
    | cons c₂ r₂ =>
      intro acc heq
      simp only [ngramValNat] at heq
      have hd₁c : (charToInt eff c₁).getD 0 < B := hd₁ c₁ (List.mem_cons_self _ _)
      have hd₂c : (charToInt eff c₂).getD 0 < B := hd₂ c₂ (List.mem_cons_self _ _)
      have hd₁r : ∀ c ∈ r₁, (charToInt eff c).getD 0 < B :=
        fun c hc => hd₁ c (List.mem_cons_of_mem _ hc)
      have hd₂r : ∀ c ∈ r₂, (charToInt eff c).getD 0 < B :=
        fun c hc => hd₂ c (List.mem_cons_of_mem _ hc)
      have hlen2 : r₁.length = r₂.length := by simpa using hlen
      have hdd : (charToInt eff c₁).getD 0 = (charToInt eff c₂).getD 0 := by
        by_contra hne
        rcases Nat.lt_or_ge ((charToInt eff c₁).getD 0) ((charToInt eff c₂).getD 0)
          with hlt | hge
        · have := ngramValNat_lt_of_acc_lt hd₁r hlen2
            (Nat.add_lt_add_left hlt (acc * B))
          omega
        · have hlt : (charToInt eff c₂).getD 0 < (charToInt eff c₁).getD 0 :=
            lt_of_le_of_ne hge (fun e => hne e.symm)
          have := ngramValNat_lt_of_acc_lt hd₂r hlen2.symm
            (Nat.add_lt_add_left hlt (acc * B))
          omega
      have hceq : c₁ = c₂ := by
        have h₁m : c₁ ∈ eff := hv₁ c₁ (List.mem_cons_self _ _)
        have h₂m : c₂ ∈ eff := hv₂ c₂ (List.mem_cons_self _ _)
        obtain ⟨v₁, hv₁c⟩ : ∃ v, charToInt eff c₁ = some v := by
          cases h : charToInt eff c₁ with
          | none => exact absurd (charToInt_eq_none_iff eff c₁ |>.mp h) (by simpa using h₁m)
          | some v => exact ⟨v, rfl⟩
        obtain ⟨v₂, hv₂c⟩ : ∃ v, charToInt eff c₂ = some v := by
          cases h : charToInt eff c₂ with
          | none => exact absurd (charToInt_eq_none_iff eff c₂ |>.mp h) (by simpa using h₂m)
          | some v => exact ⟨v, rfl⟩
        have : v₁ = v₂ := by
          rw [hv₁c, hv₂c] at hdd
          simpa using hdd
        exact charToInt_inj hv₁c (this ▸ hv₂c)
      have hv₁r : ∀ c ∈ r₁, c ∈ eff := fun c hc => hv₁ c (List.mem_cons_of_mem _ hc)
      have hv₂r : ∀ c ∈ r₂, c ∈ eff := fun c hc => hv₂ c (List.mem_cons_of_mem _ hc)
      have := ih hv₁r hv₂r hd₁r hd₂r hlen2 (acc * B + (charToInt eff c₁).getD 0)
        (by rw [heq, hdd])
      rw [hceq, this]

/-- On an n-gram all of whose characters are mapped, `_ngram_to_index`
computes the natural base-`B` value. -/
lemma ngram_to_index_of_valid {eff g : List Char} (h : ∀ c ∈ g, c ∈ eff) :
    ngram_to_index eff g = ((ngramValNat eff.dedup.length eff 0 g : Nat) : Int) := by
  have := ngramToIndexGo_eq_valNat eff.dedup.length h 0
  simpa [ngram_to_index] using this

/-- On an n-gram with an unmapped character, `_ngram_to_index` is `-1`. -/
lemma ngram_to_index_invalid {eff g : List Char} (h : ∃ c ∈ g, c ∉ eff) :
    ngram_to_index eff g = -1 :=
  ngramToIndexGo_eq_neg_one _ h 0

lemma valid_of_ngram_to_index_ne_neg_one {eff g : List Char}
    (h : ngram_to_index eff g ≠ -1) : ∀ c ∈ g, c ∈ eff := by
  intro c hc
  by_contra hn
  exact h (ngram_to_index_invalid ⟨c, hc, hn⟩)

lemma ngram_to_index_nonneg_of_valid {eff g : List Char}
    (h : ∀ c ∈ g, c ∈ eff) : 0 ≤ ngram_to_index eff g := by
  rw [ngram_to_index_of_valid h]
  exact Int.natCast_nonneg _

lemma charToInt_isSome_of_mem {eff : List Char} {c : Char} (h : c ∈ eff) :
    ∃ v, charToInt eff c = some v := by
  cases hv : charToInt eff c with
  | none => exact absurd ((charToInt_eq_none_iff eff c).mp hv) (by simpa using h)
  | some v => exact ⟨v, rfl⟩

lemma digit_lt_of_nodup {eff : List Char} (hn : eff.Nodup) {c : Char}
    (h : c ∈ eff) : (charToInt eff c).getD 0 < eff.dedup.length := by
  obtain ⟨v, hv⟩ := charToInt_isSome_of_mem h
  rw [hv, Option.getD_some, List.dedup_eq_self.mpr hn]
  exact charToInt_lt_length hv

/-- With a duplicate-free character map, valid slots stay below the number
of allocated posting slots. -/
lemma ngram_toNat_lt {eff g : List Char} (hn : eff.Nodup)
    (hv : ∀ c ∈ g, c ∈ eff) :
    (ngram_to_index eff g).toNat < eff.length ^ g.length := by
  rw [ngram_to_index_of_valid hv, Int.toNat_natCast]
  have hd : ∀ c ∈ g, (charToInt eff c).getD 0 < eff.dedup.length :=
    fun c hc => digit_lt_of_nodup hn (hv c hc)
  have h := ngramValNat_lt hd 0
  rw [List.dedup_eq_self.mpr hn] at h ⊢
  simpa using h

/-- With a duplicate-free character map, the slot encoding is injective on
valid n-grams of equal length. -/
lemma ngram_to_index_inj {eff g₁ g₂ : List Char} (hn : eff.Nodup)
    (hv₁ : ∀ c ∈ g₁, c ∈ eff) (hv₂ : ∀ c ∈ g₂, c ∈ eff)
    (hlen : g₁.length = g₂.length)
    (h : ngram_to_index eff g₁ = ngram_to_index eff g₂) : g₁ = g₂ := by
  rw [ngram_to_index_of_valid hv₁, ngram_to_index_of_valid hv₂] at h
  have hvals : ngramValNat eff.dedup.length eff 0 g₁ =
      ngramValNat eff.dedup.length eff 0 g₂ := by exact_mod_cast h
  have hd₁ : ∀ c ∈ g₁, (charToInt eff c).getD 0 < eff.dedup.length :=
    fun c hc => digit_lt_of_nodup hn (hv₁ c hc)
  have hd₂ : ∀ c ∈ g₂, (charToInt eff c).getD 0 < eff.dedup.length :=
    fun c hc => digit_lt_of_nodup hn (hv₂ c hc)
  exact ngramValNat_inj hv₁ hv₂ hd₁ hd₂ hlen 0 hvals

/-!  ### Reading a freshly written positional index -/
lemma posWrite_length (cfg : TrigramConfig) (st : Nat → List (Int × Int)) :
    (posWrite cfg st).length = numSlots cfg := by
  simp [posWrite, posWritePre]

lemma posWrite_getD {cfg : TrigramConfig} {st : Nat → List (Int × Int)}
    {s : Nat} (hs : s < numSlots cfg) :
    (posWrite cfg st).getD s ([], []) =
      applyDelta cfg
        ((sortPairs (st s)).map Prod.fst, (sortPairs (st s)).map Prod.snd) := by
  unfold posWrite posWritePre
  rw [List.getD_eq_getElem?_getD, List.getElem?_map, List.getElem?_map,
    List.getElem?_range hs]
  rfl

/-- Over a freshly written positional index, the pairs fed to the matcher
at query n-gram `i` are the writer's sorted slot pairs, shifted by `i`
(delta encoding round-trips away). -/
lemma spList_posWrite {cfg : TrigramConfig} {st : Nat → List (Int × Int)}
    {q : List Char} {i : Nat}
    (hs : (ngram_to_index cfg.effective_character_set
        (ngramAt cfg.ngram_size q i)).toNat < numSlots cfg) :
    spList cfg (posWrite cfg st) q i =
      (sortPairs (st (ngram_to_index cfg.effective_character_set
          (ngramAt cfg.ngram_size q i)).toNat)).map
        (fun p => (p.1, p.2 - (i : Int))) := by
  unfold spList
  rw [posWrite_getD hs]
  by_cases hdl : cfg.delta_encode_record_ids
  · simp [applyDelta, hdl, delta_decode_delta_encode, zip_map_fst_snd]
  · simp [applyDelta, hdl, zip_map_fst_snd]

lemma mem_spList_posWrite {cfg : TrigramConfig} {st : Nat → List (Int × Int)}
    {q : List Char} {i : Nat} {x : Int × Int}
    (hs : (ngram_to_index cfg.effective_character_set
        (ngramAt cfg.ngram_size q i)).toNat < numSlots cfg) :
    x ∈ spList cfg (posWrite cfg st) q i ↔
      (x.1, x.2 + (i : Int)) ∈ st (ngram_to_index cfg.effective_character_set
          (ngramAt cfg.ngram_size q i)).toNat := by
  rw [spList_posWrite hs]
  constructor
  · intro hm
    obtain ⟨p, hp, he⟩ := List.mem_map.mp hm
    have h1 : x.1 = p.1 := by rw [← he]
    have h2 : x.2 = p.2 - (i : Int) := by rw [← he]
    have : (x.1, x.2 + (i : Int)) = p := by
      rw [h1, h2]
      simp
    rw [this]
    exact mem_sortPairs.mp hp
  · intro hm
    apply List.mem_map.mpr
    refine ⟨(x.1, x.2 + (i : Int)), mem_sortPairs.mpr hm, ?_⟩
    simp

lemma contains_iff_mem {α : Type} [BEq α] [LawfulBEq α] (l : List α) (a : α) :
    l.contains a = true ↔ a ∈ l := by
  simp [List.contains, List.elem_iff]

/-- One valid step of the search loop on a non-first positional matcher:
intersect with the fetched start positions, short-circuiting when the
intersection dies. -/
lemma searchLoop_cons_valid (cfg : TrigramConfig) (bag : List PostingList)
    (q : List Char) (i : Nat) (rest : List Nat) (m : List (Int × Int))
    (hv : ngram_to_index cfg.effective_character_set
      (ngramAt cfg.ngram_size q i) ≠ -1) :
    searchLoop cfg bag q (i :: rest) (Matcher.pos false m) =
      if (m.filter (fun x => (spList cfg bag q i).contains x)).isEmpty then []
      else searchLoop cfg bag q rest
        (Matcher.pos false (m.filter (fun x => (spList cfg bag q i).contains x))) := by
  simp only [searchLoop, if_pos hv, Matcher.add, Bool.false_eq_true, if_false,
    Matcher.noRemaining, Bool.not_false, Bool.true_and, spList]

/-- One valid step of the search loop on a first-position matcher: adopt
the fetched start positions outright. -/
lemma searchLoop_cons_first (cfg : TrigramConfig) (bag : List PostingList)
    (q : List Char) (i : Nat) (rest : List Nat)
    (hv : ngram_to_index cfg.effective_character_set
      (ngramAt cfg.ngram_size q i) ≠ -1) :
    searchLoop cfg bag q (i :: rest) (Matcher.pos true []) =
      if (spList cfg bag q i).isEmpty then []
      else searchLoop cfg bag q rest (Matcher.pos false (spList cfg bag q i)) := by
  simp only [searchLoop, if_pos hv, Matcher.add, if_true, Matcher.noRemaining,
    Bool.not_false, Bool.true_and, spList]

/-- The search loop on a non-first positional matcher computes, over any
valid index list, the sorted distinct record ids of the running
intersection. -/
lemma searchLoop_pos_char (cfg : TrigramConfig) (bag : List PostingList)
    (q : List Char) (il : List Nat) (m : List (Int × Int))
    (hvalid : ∀ i ∈ il, ngram_to_index cfg.effective_character_set
      (ngramAt cfg.ngram_size q i) ≠ -1) :
    searchLoop cfg bag q il (Matcher.pos false m) =
      sortedSetInts ((m.filter
        (fun x => il.all (fun i => (spList cfg bag q i).contains x))).map
          Prod.fst) := by
  induction il generalizing m with
  | nil =>
    simp [searchLoop, Matcher.recordIds]
  | cons i rest ih =>
    have hvi := hvalid i (List.mem_cons_self _ _)
    have hvr : ∀ j ∈ rest, ngram_to_index cfg.effective_character_set
        (ngramAt cfg.ngram_size q j) ≠ -1 :=
      fun j hj => hvalid j (List.mem_cons_of_mem _ hj)
    rw [searchLoop_cons_valid cfg bag q i rest m hvi]
    by_cases he : (m.filter (fun x => (spList cfg bag q i).contains x)).isEmpty
    · rw [if_pos he]
      have h0 : m.filter
          (fun x => (i :: rest).all (fun j => (spList cfg bag q j).contains x)) = [] := by
        rw [List.filter_eq_nil_iff]
        intro a ha hcond
        rw [List.all_cons, Bool.and_eq_true] at hcond
        exact List.filter_eq_nil_iff.mp (List.isEmpty_iff.mp he) a ha hcond.1
      rw [h0]
      simp [sortedSetInts]
    · rw [if_neg he, ih _ hvr, List.filter_filter]
      have hfc : ∀ a ∈ m,
          (rest.all (fun j => (spList cfg bag q j).contains a) &&
            (spList cfg bag q i).contains a) =
          ((i :: rest).all (fun j => (spList cfg bag q j).contains a)) := by
        intro a _
        rw [List.all_cons, Bool.and_comm]
      rw [List.filter_congr hfc]

/-- Membership characterization of a positional `search` when the
normalized query is long enough and every query n-gram has a valid slot:
a record id is returned iff some start position pair survives every
intersection. -/
lemma search_pos_mem (cfg : TrigramConfig) (bag : List PostingList)
    (query : List Char) (hsp : cfg.store_positions = true)
    (hlen : cfg.ngram_size ≤ (normIf cfg query).length)
    (hvalid : ∀ i, i < numNgrams cfg.ngram_size (normIf cfg query) →
      ngram_to_index cfg.effective_character_set
        (ngramAt cfg.ngram_size (normIf cfg query) i) ≠ -1)
    (r : Int) :
    r ∈ search cfg bag query ↔
      ∃ x : Int × Int, x.1 = r ∧
        ∀ i, i < numNgrams cfg.ngram_size (normIf cfg query) →
          x ∈ spList cfg bag (normIf cfg query) i := by
  have hKpos : 0 < numNgrams cfg.ngram_size (normIf cfg query) := by
    unfold numNgrams
    omega
  unfold search searchCore
  rw [if_neg (not_lt.mpr hlen), hsp]
  simp only [if_true]
  obtain ⟨k, hk⟩ : ∃ k, numNgrams cfg.ngram_size (normIf cfg query) = k + 1 :=
    ⟨_, (Nat.succ_pred_eq_of_pos hKpos).symm⟩
  rw [hk, List.range_succ_eq_map]
  have hv0 : ngram_to_index cfg.effective_character_set
      (ngramAt cfg.ngram_size (normIf cfg query) 0) ≠ -1 :=
    hvalid 0 hKpos
  rw [searchLoop_cons_first cfg bag (normIf cfg query) 0 _ hv0]
  by_cases he : (spList cfg bag (normIf cfg query) 0).isEmpty
  · rw [if_pos he]
    simp only [List.not_mem_nil, false_iff, not_exists]
    rintro x ⟨hx1, hxall⟩
    have := hxall 0 (Nat.succ_pos k)
    rw [List.isEmpty_iff.mp he] at this
    cases this
  · rw [if_neg he]
    have hvr : ∀ j ∈ (List.range k).map Nat.succ,
        ngram_to_index cfg.effective_character_set
          (ngramAt cfg.ngram_size (normIf cfg query) j) ≠ -1 := by
      intro j hj
      obtain ⟨i, hi, rfl⟩ := List.mem_map.mp hj
      exact hvalid _ (by rw [hk]; exact Nat.succ_lt_succ (List.mem_range.mp hi))
    rw [searchLoop_pos_char cfg bag (normIf cfg query) _ _ hvr]
    rw [mem_sortedSetInts]
    constructor
    · intro hm
      obtain ⟨x, hxf, hx1⟩ := List.mem_map.mp hm
      obtain ⟨hx0, hcond⟩ := List.mem_filter.mp hxf
      refine ⟨x, hx1, ?_⟩
      intro i hi
      cases i with
      | zero => exact hx0
      | succ i0 =>
        have hmem : Nat.succ i0 ∈ (List.range k).map Nat.succ :=
          List.mem_map.mpr ⟨i0, List.mem_range.mpr (Nat.lt_of_succ_lt_succ hi), rfl⟩
        have := (List.all_eq_true.mp hcond) _ hmem
        exact (contains_iff_mem _ _).mp this
    · rintro ⟨x, hx1, hxall⟩
      apply List.mem_map.mpr
      refine ⟨x, ?_, hx1⟩
      apply List.mem_filter.mpr
      refine ⟨hxall 0 (Nat.succ_pos _), ?_⟩
      apply List.all_eq_true.mpr
      intro j hj
      obtain ⟨i, hi, rfl⟩ := List.mem_map.mp hj
      apply (contains_iff_mem _ _).mpr
      exact hxall _ (Nat.succ_lt_succ (List.mem_range.mp hi))

lemma isSubstr_iff (q t : List Char) :
    isSubstr q t = true ↔ ∃ p, substrAt t q p := by
  unfold isSubstr substrAt
  rw [List.any_eq_true]
  constructor
  · rintro ⟨p, _, hp⟩
    exact ⟨p, by simpa using hp⟩
  · rintro ⟨p, hp⟩
    by_cases hple : p ≤ t.length
    · exact ⟨p, List.mem_range.mpr (Nat.lt_succ_of_le hple), by simpa using hp⟩
    · have hdrop : t.drop p = [] :=
        List.drop_eq_nil_of_le (le_of_lt (lt_of_not_ge hple))
      rw [hdrop, List.take_nil] at hp
      refine ⟨0, List.mem_range.mpr (Nat.succ_pos _), ?_⟩
      rw [← hp]
      simp

lemma ngramAt_getElem? {n : Nat} {t : List Char} {j d : Nat} (hd : d < n) :
    (ngramAt n t j)[d]? = t[j + d]? := by
  unfold ngramAt
  rw [List.getElem?_take, if_pos hd, List.getElem?_drop]

/-- Gluing: if every query n-gram window matches the text at consecutive
offsets starting at `p`, the whole query occurs at `p`. -/
lemma substrAt_of_windows {t q : List Char} {n : Nat} (hn : 1 ≤ n)
    (hq : n ≤ q.length) {p : Nat}
    (hw : ∀ i, i < numNgrams n q → ngramAt n t (p + i) = ngramAt n q i) :
    substrAt t q p := by
  have hK : numNgrams n q = q.length + 1 - n := rfl
  have hKpos : 0 < numNgrams n q := by rw [hK]; omega
  apply List.ext_getElem?
  intro m
  rw [List.getElem?_take, List.getElem?_drop]
  by_cases hm : m < q.length
  · rw [if_pos hm]
    set i := min m (numNgrams n q - 1) with hi
    have hiK : i < numNgrams n q := by
      rw [hi]
      omega
    have hd : m - i < n := by
      rw [hi, hK]
      omega
    have hid : i + (m - i) = m := by
      rw [hi]
      omega
    have := hw i hiK
    have hget := congrArg (fun l => l[m - i]?) this
    simp only at hget
    rw [ngramAt_getElem? hd, ngramAt_getElem? hd] at hget
    rw [← hid, ← Nat.add_assoc]
    exact hget
  · rw [if_neg hm]
    exact (List.getElem?_eq_none (le_of_not_lt hm)).symm

/-- Splitting: an occurrence of the query at `p` yields a matching valid
window at every query n-gram offset. -/
lemma windows_of_substrAt {t q : List Char} {n : Nat} (hn : 1 ≤ n)
    (hq : n ≤ q.length) {p : Nat} (hs : substrAt t q p) :
    ∀ i, i < numNgrams n q →
      p + i < numNgrams n t ∧ ngramAt n t (p + i) = ngramAt n q i := by
  unfold substrAt at hs
  have hlt : q.length ≤ t.length - p := by
    have := congrArg List.length hs
    rw [List.length_take, List.length_drop] at this
    omega
  have hpt : p + q.length ≤ t.length := by
    have hp : p ≤ t.length := by
      by_contra hc
      have : t.drop p = [] := List.drop_eq_nil_of_le (by omega)
      rw [this, List.take_nil] at hs
      have := congrArg List.length hs
      simp at this
      omega
    omega
  intro i hi
  have hiK : i + n ≤ q.length := by
    unfold numNgrams at hi
    omega
  constructor
  · unfold numNgrams
    omega
  · unfold ngramAt
    rw [← hs]
    rw [List.drop_take]
    rw [List.drop_drop]
    rw [List.take_take]
    rw [min_eq_left (by omega : n ≤ q.length - i)]

lemma ngramAt_length {n : Nat} {t : List Char} {i : Nat}
    (hi : i < numNgrams n t) : (ngramAt n t i).length = n := by
  unfold ngramAt
  rw [List.length_take, List.length_drop]
  unfold numNgrams at hi
  omega

lemma mem_of_mem_ngramAt {n : Nat} {t : List Char} {i : Nat} {c : Char}
    (h : c ∈ ngramAt n t i) : c ∈ t :=
  List.drop_subset i t (List.take_subset n (t.drop i) h)

lemma ne_neg_one_of_nonneg {v : Int} (h : 0 ≤ v) : v ≠ -1 := by omega

lemma eq_of_nodup_map {α β : Type} {l : List α} {f : α → β}
    (h : (l.map f).Nodup) {a b : α} (ha : a ∈ l) (hb : b ∈ l)
    (hf : f a = f b) : a = b := by
  induction l with
  | nil => cases ha
  | cons c rest ih =>
    rw [List.map_cons, List.nodup_cons] at h
    rcases List.mem_cons.mp ha with rfl | ha2
    · rcases List.mem_cons.mp hb with rfl | hb2
      · rfl
      · exact absurd (hf ▸ List.mem_map_of_mem f hb2) h.1
    · rcases List.mem_cons.mp hb with rfl | hb2
      · exact absurd (hf ▸ List.mem_map_of_mem f ha2) h.1
      · exact ih h.2 ha2 hb2

lemma mem_buildPosState {cfg : TrigramConfig} {calls : List (List Char × Int)}
    {s : Nat} {x : Int × Int} :
    x ∈ buildPosState cfg calls s ↔
      ∃ c ∈ calls, x ∈ posOcc cfg (normIf cfg c.1) c.2 s := by
  rw [buildPosState_apply, List.mem_flatten]
  constructor
  · rintro ⟨l, hl, hx⟩
    obtain ⟨c, hc, rfl⟩ := List.mem_map.mp hl
    exact ⟨c, hc, hx⟩
  · rintro ⟨c, hc, hx⟩
    exact ⟨_, List.mem_map_of_mem _ hc, hx⟩

/-- Core correctness of a positional trigram index: over a duplicate-free
effective character set, with pairwise distinct record ids, a returned
record id is exactly one whose (normalized) text contains the (normalized)
query as a contiguous substring — provided the normalized query is at
least one n-gram long and stays inside the effective character set. -/
lemma search_posIndex_mem (cfg : TrigramConfig)
    (calls : List (List Char × Int)) (query : List Char)
    (hsp : cfg.store_positions = true)
    (hn1 : 1 ≤ cfg.ngram_size)
    (hnodup : cfg.effective_character_set.Nodup)
    (hrids : (calls.map Prod.snd).Nodup)
    (hlen : cfg.ngram_size ≤ (normIf cfg query).length)
    (hqv : ∀ c ∈ normIf cfg query, c ∈ cfg.effective_character_set)
    (r : Int) :
    r ∈ search cfg (posWrite cfg (buildPosState cfg calls)) query ↔
      ∃ t, (t, r) ∈ calls ∧
        isSubstr (normIf cfg query) (normIf cfg t) = true := by
  have hqvalid : ∀ i, i < numNgrams cfg.ngram_size (normIf cfg query) →
      ∀ c ∈ ngramAt cfg.ngram_size (normIf cfg query) i,
        c ∈ cfg.effective_character_set :=
    fun i _ c hc => hqv c (mem_of_mem_ngramAt hc)
  have hvalid : ∀ i, i < numNgrams cfg.ngram_size (normIf cfg query) →
      ngram_to_index cfg.effective_character_set
        (ngramAt cfg.ngram_size (normIf cfg query) i) ≠ -1 :=
    fun i hi => ne_neg_one_of_nonneg
      (ngram_to_index_nonneg_of_valid (hqvalid i hi))
  have hslot : ∀ i, i < numNgrams cfg.ngram_size (normIf cfg query) →
      (ngram_to_index cfg.effective_character_set
        (ngramAt cfg.ngram_size (normIf cfg query) i)).toNat < numSlots cfg := by
    intro i hi
    have h := ngram_toNat_lt hnodup (hqvalid i hi)
    rw [ngramAt_length hi] at h
    exact h
  rw [search_pos_mem cfg _ query hsp hlen hvalid r]
  constructor
  · rintro ⟨x, hx1, hxall⟩
    have hK0 : 0 < numNgrams cfg.ngram_size (normIf cfg query) := by
      unfold numNgrams
      omega
    have h0 := (mem_spList_posWrite (hslot 0 hK0)).mp (hxall 0 hK0)
    obtain ⟨⟨t0, r0⟩, hc0, hocc0⟩ := mem_buildPosState.mp h0
    obtain ⟨j0, hj0lt, _, _, hx0e⟩ := mem_posOcc.mp hocc0
    have hx2 : x.2 = (j0 : Int) := by
      have h := congrArg Prod.snd hx0e
      simpa using h
    have hxr : r0 = r := by
      have h := congrArg Prod.fst hx0e
      simp at h
      rw [hx1] at h
      exact h.symm
    subst hxr
    have hwin : ∀ i, i < numNgrams cfg.ngram_size (normIf cfg query) →
        j0 + i < numNgrams cfg.ngram_size (normIf cfg t0) ∧
        ngramAt cfg.ngram_size (normIf cfg t0) (j0 + i) =
          ngramAt cfg.ngram_size (normIf cfg query) i := by
      intro i hi
      have hmem := (mem_spList_posWrite (hslot i hi)).mp (hxall i hi)
      obtain ⟨ci, hci, hocci⟩ := mem_buildPosState.mp hmem
      obtain ⟨ji, hjilt, hvali, hsloti, hxie⟩ := mem_posOcc.mp hocci
      have hsame : ci = (t0, r0) := by
        apply eq_of_nodup_map hrids hci hc0
        have h1 := congrArg Prod.fst hxie
        have h2 := congrArg Prod.fst hx0e
        simp at h1 h2
        rw [← h1, ← h2]
      subst hsame
      have hji : ji = j0 + i := by
        have h := congrArg Prod.snd hxie
        simp only at h
        rw [hx2] at h
        omega
      subst hji
      refine ⟨hjilt, ?_⟩
      apply ngram_to_index_inj hnodup
        (valid_of_ngram_to_index_ne_neg_one hvali) (hqvalid i hi)
        (by rw [ngramAt_length hjilt, ngramAt_length hi])
      have hnn1 := ngram_to_index_nonneg_of_valid
        (valid_of_ngram_to_index_ne_neg_one hvali)
      have hnn2 := ngram_to_index_nonneg_of_valid (hqvalid i hi)
      omega
    refine ⟨t0, hc0, ?_⟩
    rw [isSubstr_iff]
    exact ⟨j0, substrAt_of_windows hn1 hlen (fun i hi => (hwin i hi).2)⟩
  · rintro ⟨t, htc, hsub⟩
    obtain ⟨p, hp⟩ := (isSubstr_iff (normIf cfg query) (normIf cfg t)).mp hsub
    have hwin := windows_of_substrAt hn1 hlen hp
    refine ⟨(r, (p : Int)), rfl, ?_⟩
    intro i hi
    apply (mem_spList_posWrite (hslot i hi)).mpr
    apply mem_buildPosState.mpr
    refine ⟨(t, r), htc, ?_⟩
    apply mem_posOcc.mpr
    obtain ⟨hlt, hweq⟩ := hwin i hi
    refine ⟨p + i, hlt, ?_, ?_, ?_⟩
    · rw [hweq]
      exact hvalid i hi
    · rw [hweq]
    · simp only [Prod.mk.injEq]
      constructor
      · trivial
      · push_cast
        ring

/-!  ### Order invariance of the writers (canonicalisation by sort) -/
lemma allIdsOf_perm {calls₁ calls₂ : List (Bytes × List Int)} (k : Bytes)
    (h : List.Perm calls₁ calls₂) :
    List.Perm (allIdsOf calls₁ k) (allIdsOf calls₂ k) :=
  ((h.filter _).map _).flatten

lemma hbKeys_buildHBState_perm {calls₁ calls₂ : List (Bytes × List Int)}
    (h : List.Perm calls₁ calls₂) :
    List.Perm (hbKeys (buildHBState calls₁)) (hbKeys (buildHBState calls₂)) := by
  rw [List.perm_ext_iff_of_nodup (nodup_hbKeys_buildHBState calls₁)
    (nodup_hbKeys_buildHBState calls₂)]
  intro k
  rw [mem_hbKeys_buildHBState, mem_hbKeys_buildHBState]
  exact (h.map Prod.fst).mem_iff

lemma hbWrite_congr (hash : Bytes → Nat) (nb : Nat)
    {st₁ st₂ : List (Bytes × List Int)}
    (hkeys : List.Perm (hbKeys st₁) (hbKeys st₂))
    (hget : ∀ k, List.Perm (hbGet st₁ k) (hbGet st₂ k)) :
    hbWrite hash nb st₁ = hbWrite hash nb st₂ := by
  unfold hbWrite
  apply List.map_congr_left
  intro b _
  have hsorted : List.insertionSort (· ≤ ·)
      ((hbKeys st₁).filter (fun k => hash k % nb = b)) =
    List.insertionSort (· ≤ ·)
      ((hbKeys st₂).filter (fun k => hash k % nb = b)) :=
    List.eq_of_perm_of_sorted
      (((List.perm_insertionSort _ _).trans (hkeys.filter _)).trans
        (List.perm_insertionSort _ _).symm)
      (List.sorted_insertionSort _ _) (List.sorted_insertionSort _ _)
  rw [hsorted]
  apply List.map_congr_left
  intro k _
  rw [sortedSetInts_eq_of_perm (hget k)]

/-- HashBucket writer output is independent of the order of `add` calls. -/
lemma hbWriteFull_perm (hash : Bytes → Nat) (nbOf : Nat → Nat)
    {calls₁ calls₂ : List (Bytes × List Int)} (h : List.Perm calls₁ calls₂) :
    hbWriteFull hash nbOf (buildHBState calls₁) =
      hbWriteFull hash nbOf (buildHBState calls₂) := by
  unfold hbWriteFull
  have hlen : (buildHBState calls₁).length = (buildHBState calls₂).length := by
    have h1 : (hbKeys (buildHBState calls₁)).length =
        (hbKeys (buildHBState calls₂)).length :=
      (hbKeys_buildHBState_perm h).length_eq
    simpa [hbKeys] using h1
  rw [hlen]
  apply hbWrite_congr
  · exact hbKeys_buildHBState_perm h
  · intro k
    rw [hbGet_buildHBState, hbGet_buildHBState]
    exact allIdsOf_perm k h

lemma buildPosState_perm (cfg : TrigramConfig)
    {calls₁ calls₂ : List (List Char × Int)} (h : List.Perm calls₁ calls₂)
    (s : Nat) :
    List.Perm (buildPosState cfg calls₁ s) (buildPosState cfg calls₂ s) := by
  rw [buildPosState_apply, buildPosState_apply]
  exact (h.map _).flatten

lemma buildSimpleState_perm (cfg : TrigramConfig)
    {calls₁ calls₂ : List (List Char × Int)} (h : List.Perm calls₁ calls₂)
    (s : Nat) :
    List.Perm (buildSimpleState cfg calls₁ s) (buildSimpleState cfg calls₂ s) := by
  rw [buildSimpleState_apply, buildSimpleState_apply]
  exact (h.map _).flatten

/-- Positional trigram writer output is independent of the order of
`add_text` calls. -/
lemma posWrite_perm (cfg : TrigramConfig)
    {calls₁ calls₂ : List (List Char × Int)} (h : List.Perm calls₁ calls₂) :
    posWrite cfg (buildPosState cfg calls₁) =
      posWrite cfg (buildPosState cfg calls₂) := by
  unfold posWrite posWritePre
  apply congrArg
  apply List.map_congr_left
  intro s _
  rw [sortPairs_eq_of_perm (buildPosState_perm cfg h s)]

/-- Simple trigram writer output is independent of the order of
`add_text` calls. -/
lemma simpleWrite_perm (cfg : TrigramConfig)
    {calls₁ calls₂ : List (List Char × Int)} (h : List.Perm calls₁ calls₂) :
    simpleWrite cfg (buildSimpleState cfg calls₁) =
      simpleWrite cfg (buildSimpleState cfg calls₂) := by
  unfold simpleWrite simpleWritePre
  apply congrArg
  apply List.map_congr_left
  intro s _
  rw [sortedSetInts_eq_of_perm (buildSimpleState_perm cfg h s)]

/-!  ### PostingList shape invariants -/
lemma sortedSetInts_pairwise_lt (l : List Int) :
    List.Pairwise (· < ·) (sortedSetInts l) := by
  have hs : List.Pairwise (· ≤ ·) (sortedSetInts l) :=
    List.sorted_insertionSort _ _
  have hnd : (sortedSetInts l).Nodup :=
    (List.perm_insertionSort _ _).nodup_iff.mpr (List.nodup_dedup l)
  exact (hs.and hnd).imp (fun h => lt_of_le_of_ne h.1 h.2)

lemma mem_posWritePre {cfg : TrigramConfig} {st : Nat → List (Int × Int)}
    {pl : PostingList} (h : pl ∈ posWritePre cfg st) :
    ∃ s, pl = ((sortPairs (st s)).map Prod.fst, (sortPairs (st s)).map Prod.snd) := by
  obtain ⟨s, _, he⟩ := List.mem_map.mp h
  exact ⟨s, he.symm⟩

lemma mem_simpleWritePre {cfg : TrigramConfig} {st : Nat → List Int}
    {pl : PostingList} (h : pl ∈ simpleWritePre cfg st) :
    ∃ s, pl = (sortedSetInts (st s), []) := by
  obtain ⟨s, _, he⟩ := List.mem_map.mp h
  exact ⟨s, he.symm⟩

/-!  ### Normalization: run replacement semantics -/
lemma subRunsGo_all_in {cs : List Char} {t : List Char}
    (h : ∀ c ∈ t, c ∈ cs) : subRunsGo cs false t = t := by
  induction t with
  | nil => rfl
  | cons c rest ih =>
    have hc : c ∈ cs := h c (List.mem_cons_self _ _)
    rw [subRunsGo, if_pos hc, ih (fun d hd => h d (List.mem_cons_of_mem _ hd))]

/-- Text entirely inside the character set is left unchanged by the
substitution. -/
lemma subRuns_all_in {cs t : List Char} (h : ∀ c ∈ t, c ∈ cs) :
    subRuns cs t = t :=
  subRunsGo_all_in h

lemma subRunsGo_true_head {cs suf : List Char}
    (hsuf : ∀ c ∈ suf.take 1, c ∈ cs) :
    subRunsGo cs true suf = subRunsGo cs false suf := by
  cases suf with
  | nil => rfl
  | cons c s =>
    have hc : c ∈ cs := hsuf c (by simp)
    rw [subRunsGo, subRunsGo, if_pos hc, if_pos hc]

lemma subRunsGo_skip {cs rs suf : List Char}
    (hout : ∀ c ∈ rs, c ∉ cs)
    (hsuf : ∀ c ∈ suf.take 1, c ∈ cs) :
    subRunsGo cs true (rs ++ suf) = subRunsGo cs false suf := by
  induction rs with
  | nil =>
    rw [List.nil_append]
    exact subRunsGo_true_head hsuf
  | cons r rs ih =>
    have hr : r ∉ cs := hout r (List.mem_cons_self _ _)
    rw [List.cons_append, subRunsGo, if_neg hr, if_pos rfl]
    exact ih (fun c hc => hout c (List.mem_cons_of_mem _ hc))

/-- Each maximal nonempty run of out-of-charset characters is replaced by
exactly one space: a run preceded by in-charset text and followed by an
in-charset character (or the end of the text) collapses to `' '`. -/
lemma subRuns_run (cs pre run suf : List Char)
    (hpre : ∀ c ∈ pre, c ∈ cs) (hrun : run ≠ [])
    (hout : ∀ c ∈ run, c ∉ cs)
    (hsuf : ∀ c ∈ suf.take 1, c ∈ cs) :
    subRuns cs (pre ++ run ++ suf) = pre ++ ' ' :: subRuns cs suf := by
  unfold subRuns
  induction pre with
  | nil =>
    cases run with
    | nil => exact absurd rfl hrun
    | cons r rs =>
      have hr : r ∉ cs := hout r (List.mem_cons_self _ _)
      rw [List.nil_append, List.cons_append, subRunsGo, if_neg hr, if_neg (by simp)]
      rw [subRunsGo_skip (fun c hc => hout c (List.mem_cons_of_mem _ hc)) hsuf]
      rfl
  | cons p ps ih =>
    have hp : p ∈ cs := hpre p (List.mem_cons_self _ _)
    rw [List.cons_append, List.cons_append, subRunsGo, if_pos hp,
      ih (fun c hc => hpre c (List.mem_cons_of_mem _ hc)), List.cons_append]

/-!  ## The claims -/
/-- C1: for every HashBucket index built by `HashBucketWriter` (any
sequence of `add(key, record_ids)` calls followed by one `write`) and
every key `k`, `HashBucketReader.lookup(k)` returns exactly the sorted,
duplicate-free union of all record ids passed in `add` calls with key `k`,
and `None` for a key never added.  Quantified over the (external) hash
function and the bucket-count function, which writer and reader share. -/
theorem hashbucket_lookup_exact (hash : Bytes → Nat) (nbOf : Nat → Nat)
    (calls : List (Bytes × List Int)) (k : Bytes) :
    (k ∈ calls.map Prod.fst →
      hbLookup hash (hbWriteFull hash nbOf (buildHBState calls)) k =
        some (sortedSetInts (allIdsOf calls k))) ∧
    (k ∉ calls.map Prod.fst →
      hbLookup hash (hbWriteFull hash nbOf (buildHBState calls)) k = none) := by
  constructor
  · intro hk
    rw [hbLookup_hbWriteFull,
      if_pos ((mem_hbKeys_buildHBState calls k).mpr hk), hbGet_buildHBState]
  · intro hk
    rw [hbLookup_hbWriteFull,
      if_neg (fun h => hk ((mem_hbKeys_buildHBState calls k).mp h))]

/-- Witness for C1 on the seed-like build
`add([1],[3,1]); add([2],[5]); add([1],[3])`. -/
theorem hashbucket_lookup_exact_witness :
    hbLookup (fun b => b.sum)
      (hbWriteFull (fun b => b.sum) (fun x => x)
        (buildHBState [([1], [3, 1]), ([2], [5]), ([1], [3])])) [1] =
      some [1, 3] ∧
    hbLookup (fun b => b.sum)
      (hbWriteFull (fun b => b.sum) (fun x => x)
        (buildHBState [([1], [3, 1]), ([2], [5]), ([1], [3])])) [9] = none := by
  constructor
  · have h := (hashbucket_lookup_exact (fun b => b.sum) (fun x => x)
      [([1], [3, 1]), ([2], [5]), ([1], [3])] [1]).1 (by decide)
    have h2 : some (sortedSetInts
        (allIdsOf [([1], [3, 1]), ([2], [5]), ([1], [3])] [1])) =
        some ([1, 3] : List Int) := by decide
    exact h.trans h2
  · exact (hashbucket_lookup_exact (fun b => b.sum) (fun x => x)
      [([1], [3, 1]), ([2], [5]), ([1], [3])] [9]).2 (by decide)

/-- C2 counterexample: with `normalize = False`, a query n-gram containing
a character outside the character set is SKIPPED rather than failing the
match, so `search` returns record 0 for the query `"abcxy"` over the sole
indexed text `"abc"`, which does not contain the query — refuting the
claim as stated (the index is positional and `|q| = 5 ≥ ngram_size = 3`). -/
theorem trigram_positional_exact_cex :
    search cfgCex (posWrite cfgCex (buildPosState cfgCex [(['a', 'b', 'c'], 0)]))
        ['a', 'b', 'c', 'x', 'y'] = [0] ∧
    isSubstr ['a', 'b', 'c', 'x', 'y'] ['a', 'b', 'c'] = false ∧
    cfgCex.store_positions = true ∧
    cfgCex.ngram_size ≤ (['a', 'b', 'c', 'x', 'y'] : List Char).length := by
  decide

/-- C2 (amended): for a positional trigram index over a duplicate-free
effective character set, built from `add_text` calls with pairwise
distinct record ids, a query whose normalized form is at least one n-gram
long and lies inside the effective character set returns exactly the
record ids whose normalized indexed text contains the normalized query as
a contiguous substring. -/
theorem trigram_positional_search_exact (cfg : TrigramConfig)
    (calls : List (List Char × Int)) (query : List Char) (r : Int)
    (hsp : cfg.store_positions = true)
    (hn1 : 1 ≤ cfg.ngram_size)
    (hnodup : cfg.effective_character_set.Nodup)
    (hrids : (calls.map Prod.snd).Nodup)
    (hlen : cfg.ngram_size ≤ (normIf cfg query).length)
    (hqv : ∀ c ∈ normIf cfg query, c ∈ cfg.effective_character_set) :
    r ∈ search cfg (posWrite cfg (buildPosState cfg calls)) query ↔
      ∃ t, (t, r) ∈ calls ∧
        isSubstr (normIf cfg query) (normIf cfg t) = true :=
  search_posIndex_mem cfg calls query hsp hn1 hnodup hrids hlen hqv r

/-- Witness for C2 on the normalized build
`add_text("abc", 0); add_text("bcb", 1)` with query `"bc"`. -/
theorem trigram_positional_search_exact_witness :
    (0 : Int) ∈ search cfgW
        (posWrite cfgW (buildPosState cfgW [(['a', 'b', 'c'], 0), (['b', 'c', 'b'], 1)]))
        ['b', 'c'] ↔
      ∃ t, (t, (0 : Int)) ∈ [(['a', 'b', 'c'], (0 : Int)), (['b', 'c', 'b'], 1)] ∧
        isSubstr (normIf cfgW ['b', 'c']) (normIf cfgW t) = true :=
  trigram_positional_search_exact cfgW
    [(['a', 'b', 'c'], 0), (['b', 'c', 'b'], 1)] ['b', 'c'] 0
    (by decide) (by decide) (by decide) (by decide) (by decide) (by decide)

/-- C3: the driver registers shard path 0 in `__enter__` but discards the
writer `_new_shard_writer()` returns, so no writer is ever bound to path 0
and nothing is ever written there; the first `add_record` lazily registers
path 1 for the writer it creates.  On exit the merge is requested over ALL
registered shard paths — including path 0, which does not exist on disk —
so `bagz.Reader` fails and no output index is produced (with zero records,
the only requested path 0 was likewise never written). -/
theorem sharded_builder_phantom_shard :
    (sbRun ([] : List Nat) (fun w x => w ++ [x]) 200000 ([] : List Nat)).2 =
      some [0] ∧
    (sbRun ([] : List Nat) (fun w x => w ++ [x]) 200000 ([] : List Nat)).1.files
      = [] ∧
    (sbRun ([] : List Nat) (fun w x => w ++ [x]) 200000 [42]).2 = some [0, 1] ∧
    ((sbRun ([] : List Nat) (fun w x => w ++ [x]) 200000 [42]).1.files).map
      Prod.fst = [1] ∧
    sbMergeReadsOk
      (sbRun ([] : List Nat) (fun w x => w ++ [x]) 200000 ([] : List Nat)).1
      [0] = false ∧
    sbMergeReadsOk
      (sbRun ([] : List Nat) (fun w x => w ++ [x]) 200000 [42]).1
      [0, 1] = false := by
  decide

/-- C4 counterexample: adding the same `(text, record_id)` twice in
positional mode duplicates the `(record_id, offset)` pair —
`sorted(zip(...))` does not deduplicate — so the persisted pairs are NOT
distinct. -/
theorem posting_pairs_distinct_cex :
    posWritePre cfgC4 (buildPosState cfgC4 [(['a'], 0), (['a'], 0)]) =
      [([0, 0], [0, 0])] ∧
    ¬ (((posWritePre cfgC4
          (buildPosState cfgC4 [(['a'], 0), (['a'], 0)])).getD 0 ([], [])).1.zip
        ((posWritePre cfgC4
          (buildPosState cfgC4 [(['a'], 0), (['a'], 0)])).getD 0 ([], [])).2).Nodup := by
  decide

/-- C4 (amended): every PostingList persisted by `TrigramWriter.write`
(before optional delta encoding) satisfies: in positional mode,
`len(record_ids) == len(record_offsets)` and the pairs ascend
lexicographically (non-strictly: duplicates arise from repeated identical
`add_text` calls); in simple mode, the record ids are strictly
ascending and no offsets are stored. -/
theorem posting_list_shape (cfg : TrigramConfig)
    (calls : List (List Char × Int)) (pl : PostingList) :
    (pl ∈ posWritePre cfg (buildPosState cfg calls) →
      pl.1.length = pl.2.length ∧ List.Chain' pairLe (pl.1.zip pl.2)) ∧
    (pl ∈ simpleWritePre cfg (buildSimpleState cfg calls) →
      List.Chain' (· < ·) pl.1 ∧ pl.2 = []) := by
  constructor
  · intro h
    obtain ⟨s, rfl⟩ := mem_posWritePre h
    refine ⟨by simp, ?_⟩
    rw [zip_map_fst_snd, List.chain'_iff_pairwise]
    exact sortPairs_sorted _
  · intro h
    obtain ⟨s, rfl⟩ := mem_simpleWritePre h
    refine ⟨?_, rfl⟩
    rw [List.chain'_iff_pairwise]
    exact sortedSetInts_pairwise_lt _

/-- Witness for C4 on the duplicated build of the counterexample: the
shape invariants hold for its sole posting list. -/
theorem posting_list_shape_witness :
    ([0, 0] : List Int).length = ([0, 0] : List Int).length ∧
      List.Chain' pairLe ((([0, 0] : List Int)).zip ([0, 0] : List Int)) :=
  (posting_list_shape cfgC4 [(['a'], 0), (['a'], 0)]
    (([0, 0], [0, 0]) : PostingList)).1 (by decide)

/-- C5: `merge_indices` raises on an empty input list, raises when the
descriptors parsed from the inputs are not all equal (and then the merger
is never constructed, so no output is produced — `Except.error`), and
otherwise dispatches the merger built from the shared config over all
inputs. -/
theorem merge_indices_validation {α β : Type} (parseConfig : α → IndexConfig)
    (runMerger : IndexConfig → List α → β) :
    (∃ e, merge_indices parseConfig runMerger [] = Except.error e) ∧
    (∀ inputs : List α,
      ¬ (∀ i ∈ inputs, ∀ j ∈ inputs, parseConfig i = parseConfig j) →
      ∃ e, merge_indices parseConfig runMerger inputs = Except.error e) ∧
    (∀ (i0 : α) (rest : List α),
      (∀ i ∈ rest, parseConfig i = parseConfig i0) →
      merge_indices parseConfig runMerger (i0 :: rest) =
        Except.ok (runMerger (parseConfig i0) (i0 :: rest))) := by
  refine ⟨⟨_, rfl⟩, ?_, ?_⟩
  · intro inputs hne
    cases inputs with
    | nil =>
      exact absurd (fun i hi => absurd hi (List.not_mem_nil i)) hne
    | cons i0 rest =>
      by_cases hall : ∀ i ∈ rest, parseConfig i = parseConfig i0
      · exfalso
        apply hne
        intro i hi j hj
        rcases List.mem_cons.mp hi with rfl | hi2
        · rcases List.mem_cons.mp hj with rfl | hj2
          · rfl
          · exact (hall j hj2).symm
        · rcases List.mem_cons.mp hj with rfl | hj2
          · exact hall i hi2
          · rw [hall i hi2, hall j hj2]
      · have hcond : ¬ ((rest.all fun i =>
            decide (parseConfig i = parseConfig i0)) = true) := by
          intro hc
          apply hall
          intro i hi
          simpa using List.all_eq_true.mp hc i hi
        refine ⟨"All indices must have the same config.", ?_⟩
        simp only [merge_indices]
        rw [if_neg hcond]
  · intro i0 rest hall
    simp only [merge_indices]
    rw [if_pos (List.all_eq_true.mpr
      (fun i hi => decide_eq_true (hall i hi)))]

/-- Witness for C5 on concrete configs. -/
theorem merge_indices_validation_witness :
    (∃ e, merge_indices (fun c : IndexConfig => c) (fun c l => (c, l)) [] =
      Except.error e) ∧
    (∃ e, merge_indices (fun c : IndexConfig => c) (fun c l => (c, l))
      [IndexConfig.hashbucket "k" 1,
       IndexConfig.trigram { character_set := ['a'] }] = Except.error e) ∧
    merge_indices (fun c : IndexConfig => c) (fun c l => (c, l))
      [IndexConfig.hashbucket "k" 1, IndexConfig.hashbucket "k" 1] =
      Except.ok (IndexConfig.hashbucket "k" 1,
        [IndexConfig.hashbucket "k" 1, IndexConfig.hashbucket "k" 1]) :=
  ⟨(merge_indices_validation (fun c : IndexConfig => c) (fun c l => (c, l))).1,
   (merge_indices_validation (fun c : IndexConfig => c) (fun c l => (c, l))).2.1
     _ (by decide),
   (merge_indices_validation (fun c : IndexConfig => c) (fun c l => (c, l))).2.2
     _ _ (by decide)⟩

/-- C6: delta encoding round-trips — decoding the encoding of a nonempty
ascending integer list restores it, and encoding an empty list is a
no-op. -/
theorem delta_roundtrip :
    (∀ L : List Int, L ≠ [] → List.Sorted (· < ·) L →
      delta_decode (delta_encode L) = L) ∧
    delta_encode ([] : List Int) = [] :=
  ⟨fun L _ _ => delta_decode_delta_encode L, rfl⟩

/-- Witness for C6 at `L = [1, 3, 7]`. -/
theorem delta_roundtrip_witness :
    delta_decode (delta_encode [1, 3, 7]) = [1, 3, 7] :=
  delta_roundtrip.1 [1, 3, 7] (by decide) (by decide)

/-- C7: normalization equals lowercasing, then replacing each maximal run
of out-of-charset characters by a single space (text inside the charset is
untouched; a nonempty out-of-charset run bounded by in-charset text
collapses to one space), then stripping; and it is applied to indexed
texts (`add_text`, both modes) and to queries (`search`) exactly when
`normalize` is set. -/
theorem normalize_semantics :
    (∀ cs t, normalize_text cs t = pyStrip (subRuns cs (pyLower t))) ∧
    (∀ cs t : List Char, (∀ c ∈ t, c ∈ cs) → subRuns cs t = t) ∧
    (∀ cs pre run suf : List Char, (∀ c ∈ pre, c ∈ cs) → run ≠ [] →
      (∀ c ∈ run, c ∉ cs) → (∀ c ∈ suf.take 1, c ∈ cs) →
      subRuns cs (pre ++ run ++ suf) = pre ++ ' ' :: subRuns cs suf) ∧
    (∀ cfg st t rid, trigramAddTextPos cfg st t rid =
      posAddText cfg st
        (if cfg.normalize then normalize_text cfg.character_set t else t) rid) ∧
    (∀ cfg st t rid, trigramAddTextSimple cfg st t rid =
      simpleAddText cfg st
        (if cfg.normalize then normalize_text cfg.character_set t else t) rid) ∧
    (∀ cfg bag q, search cfg bag q =
      searchCore cfg bag
        (if cfg.normalize then normalize_text cfg.character_set q else q)) :=
  ⟨fun _ _ => rfl,
   fun _ _ h => subRuns_all_in h,
   fun cs pre run suf h1 h2 h3 h4 => subRuns_run cs pre run suf h1 h2 h3 h4,
   fun _ _ _ _ => rfl,
   fun _ _ _ _ => rfl,
   fun _ _ _ => rfl⟩

/-- Witness for C7: the run `"xy"` inside `"axyb"` collapses to a single
space over the charset `{a, b}`. -/
theorem normalize_semantics_witness :
    subRuns ['a', 'b'] (['a'] ++ ['x', 'y'] ++ ['b']) =
      ['a'] ++ ' ' :: subRuns ['a', 'b'] ['b'] :=
  normalize_semantics.2.2.1 ['a', 'b'] ['a'] ['x', 'y'] ['b']
    (by decide) (by decide) (by decide) (by decide)

/-- C8: pattern matching satisfies the end conditions — an exhausted
pattern succeeds iff the path is exhausted; an exhausted path with
matchers remaining succeeds iff every remaining matcher is a double
wildcard — and over the seed schema, `**.sub_id`, `sub.*` and `{id,name}`
expand to exactly the expected path sets (listed in schema enumeration
order). -/
theorem pattern_match_end_conditions :
    (∀ p : List String, patMatch [] p = p.isEmpty) ∧
    (∀ ms : List PMatcher, ms ≠ [] →
      patMatch ms [] = ms.all PMatcher.isDoubleWildcard) ∧
    expand_field_pattern seedSchema "**.sub_id".toList =
      [["sub", "sub_id"], ["nested_subs", "sub_id"]] ∧
    expand_field_pattern seedSchema "sub.*".toList =
      [["sub", "sub_id"], ["sub", "sub_name"], ["sub", "sub_value"]] ∧
    expand_field_pattern seedSchema "{id,name}".toList = [["id"], ["name"]] := by
  refine ⟨?_, ?_, by decide, by decide, by decide⟩
  · intro p
    cases p <;> rfl
  · intro ms hne
    cases ms with
    | nil => exact absurd rfl hne
    | cons m rest => rfl

/-- Witness for C8 at the one-matcher pattern `**` on the empty path. -/
theorem pattern_match_end_conditions_witness :
    patMatch [PMatcher.doubleWildcard] [] =
      [PMatcher.doubleWildcard].all PMatcher.isDoubleWildcard :=
  pattern_match_end_conditions.2.1 [PMatcher.doubleWildcard] (by decide)

/-- C9: permuting the same multiset of `add` (respectively `add_text`)
calls leaves the written index unchanged, for the HashBucket writer and
for both trigram writer modes (writers canonicalise by sort; equal
structured payloads serialize to equal bytes). -/
theorem writer_order_invariance :
    (∀ (hash : Bytes → Nat) (nbOf : Nat → Nat)
      (calls₁ calls₂ : List (Bytes × List Int)), List.Perm calls₁ calls₂ →
      hbWriteFull hash nbOf (buildHBState calls₁) =
        hbWriteFull hash nbOf (buildHBState calls₂)) ∧
    (∀ (cfg : TrigramConfig) (calls₁ calls₂ : List (List Char × Int)),
      List.Perm calls₁ calls₂ →
      posWrite cfg (buildPosState cfg calls₁) =
        posWrite cfg (buildPosState cfg calls₂)) ∧
    (∀ (cfg : TrigramConfig) (calls₁ calls₂ : List (List Char × Int)),
      List.Perm calls₁ calls₂ →
      simpleWrite cfg (buildSimpleState cfg calls₁) =
        simpleWrite cfg (buildSimpleState cfg calls₂)) :=
  ⟨fun hash nbOf _ _ h => hbWriteFull_perm hash nbOf h,
   fun cfg _ _ h => posWrite_perm cfg h,
   fun cfg _ _ h => simpleWrite_perm cfg h⟩

/-- Witness for C9 on two-call builds swapped. -/
theorem writer_order_invariance_witness :
    hbWriteFull (fun b => b.sum) (fun x => x)
        (buildHBState [([1], [5]), ([2], [6])]) =
      hbWriteFull (fun b => b.sum) (fun x => x)
        (buildHBState [([2], [6]), ([1], [5])]) ∧
    posWrite cfgW2 (buildPosState cfgW2 [(['a'], 0), (['b'], 1)]) =
      posWrite cfgW2 (buildPosState cfgW2 [(['b'], 1), (['a'], 0)]) ∧
    simpleWrite cfgW2 (buildSimpleState cfgW2 [(['a'], 0), (['b'], 1)]) =
      simpleWrite cfgW2 (buildSimpleState cfgW2 [(['b'], 1), (['a'], 0)]) :=
  ⟨writer_order_invariance.1 (fun b => b.sum) (fun x => x) _ _ (by decide),
   writer_order_invariance.2.1 cfgW2 _ _ (by decide),
   writer_order_invariance.2.2 cfgW2 _ _ (by decide)⟩

/-- C10: a key added only with empty record-id sequences is still
materialized (the `defaultdict` access creates the entry), so lookup
returns the empty tuple, distinguishable from the `None` of a key never
added. -/
theorem empty_ids_key_materialized (hash : Bytes → Nat) (nbOf : Nat → Nat)
    (calls : List (Bytes × List Int)) (k : Bytes)
    (hk : k ∈ calls.map Prod.fst)
    (hempty : ∀ c ∈ calls, c.1 = k → c.2 = ([] : List Int)) :
    hbLookup hash (hbWriteFull hash nbOf (buildHBState calls)) k =
      some ([] : List Int) ∧
    some ([] : List Int) ≠ (none : Option (List Int)) := by
  refine ⟨?_, by simp⟩
  rw [hbLookup_hbWriteFull,
    if_pos ((mem_hbKeys_buildHBState calls k).mpr hk), hbGet_buildHBState]
  have hall : allIdsOf calls k = [] := by
    unfold allIdsOf
    rw [List.flatten_eq_nil_iff]
    intro l hl
    obtain ⟨c, hc, rfl⟩ := List.mem_map.mp hl
    exact hempty c (List.mem_filter.mp hc).1
      (by simpa using (List.mem_filter.mp hc).2)
  rw [hall]
  rfl

/-- Witness for C10 on `add([1], []); add([2], [7]); add([1], [])`. -/
theorem empty_ids_key_materialized_witness :
    hbLookup (fun b => b.sum)
      (hbWriteFull (fun b => b.sum) (fun x => x)
        (buildHBState [([1], []), ([2], [7]), ([1], [])])) [1] =
      some ([] : List Int) ∧
    some ([] : List Int) ≠ (none : Option (List Int)) :=
  empty_ids_key_materialized (fun b => b.sum) (fun x => x)
    [([1], []), ([2], [7]), ([1], [])] [1] (by decide) (by decide)

end BagzIndex
